import Mathlib

/-!
# gh-recurse: the clone dispatcher of `cmd/root.go`

A shallow embedding of `run` (cmd/root.go) and of the sequential loop of the
earlier single-threaded `main` (.main.go).

* The sequential part of `run` (argument check, the two `ListByOrg` calls, the
  passphrase prompt) is the function `setup`.
* The worker pool is a transition system: `step` executes one atomic action of
  one goroutine, `exec` a whole schedule (an interleaving).  Blocking
  operations (channel send/receive on the unbuffered channel, `wg.Wait`) are
  actions that are enabled only when the operation can complete.
* The outside world (GitHub listing, terminal, libgit2, home directory) is a
  record of functions, `World`.
-/

namespace GhRecurse

/-! ## Data model -/

/-- The part of `github.Repository` that `run` reads: the repository name
(`*repo.Name`; the listing API always fills it in). -/
structure Repository where
  Name : String
deriving DecidableEq, Repr

namespace strings

/-- Whether `sub` is an initial segment of `s` (on characters). -/
def startsWith : List Char → List Char → Bool
  | _, [] => true
  | [], _ :: _ => false
  | c :: cs, d :: ds => c == d && startsWith cs ds

/-- Whether `sub` occurs in `s` at some offset. -/
def containsChars : List Char → List Char → Bool
  | [], sub => startsWith [] sub
  | c :: cs, sub => startsWith (c :: cs) sub || containsChars cs sub

/-- The function `strings.Contains(s, substr)` of Go. -/
def Contains (s substr : String) : Bool :=
  containsChars s.toList substr.toList

end strings

/-- The marker tested at cmd/root.go:105 and .main.go:44. -/
def existsMsg : String := "exists and is not an empty directory"

/-- The first argument of `git.Clone`:
`fmt.Sprintf("git@github.com:%s/%s", orgName, *repo.Name)`. -/
def cloneURL (orgName name : String) : String :=
  "git@github.com:" ++ orgName ++ "/" ++ name

/-- The `if err != nil { if strings.Contains(...) { continue }; log.Fatal(err) }`
test applied to the result of `git.Clone` (`none` is a nil error): the message
handed to `log.Fatal`, if any. -/
def fatalOf : Option String → Option String
  | none => none
  | some e => if strings.Contains e existsMsg then none else some e

/-- The default of the `--concurrency` flag (cmd/root.go:140). -/
def defaultConcurrency : Int := 4

/-- The outside world as seen by `run`.
* `ListByOrg org type` is `client.Repositories.ListByOrg` with
  `RepositoryListByOrgOptions{Type: type}`; `.error e` is a non-nil `err`.
* `ReadPassword` is `terminal.ReadPassword` in `getPassphraseCredentialsCallback`.
* `Clone i url path` is the error (`none` for nil) returned by the call
  `git.Clone(url, path, cloneOptions)` made for the job at position `i` of the
  job list, when the call returns; the position stands for the state of the
  world at that call.
* `Callback i url path` says what happens to the credentials closure of
  `cloneOptions` during that call: `none` when libgit2 does not run it,
  `some h` when libgit2 runs it and `homedir.Dir()` returns `h` in it. -/
structure World where
  ListByOrg : String → String → Except String (List Repository)
  ReadPassword : Except String String
  Clone : Nat → String → String → Option String
  Callback : Nat → String → String → Option (Except String String)

/-- What the pool needs once the setup succeeded. -/
structure Pool where
  orgName : String
  repos : List Repository
  Clone : Nat → String → String → Option String
  Callback : Nat → String → String → Option (Except String String)

/-- The closure returned by `getPassphraseCredentialsCallback`
(cmd/root.go:182-196), as far as the life of the process goes: given the result
of `homedir.Dir()`, `some e` when it runs `fmt.Println(e)` and `os.Exit(1)`,
`none` when it builds the key credential and returns. -/
def credentialsExit : Except String String → Option String
  | .error e => some e
  | .ok _ => none

/-- Whether the call `git.Clone(url, path, cloneOptions)` for the job at
position `i` ends the process instead of returning: libgit2 runs the
credentials closure during the call and the closure calls `os.Exit(1)`; the
value is the error the closure printed. -/
def cloneExit (p : Pool) (i : Nat) (name : String) : Option String :=
  match p.Callback i (cloneURL p.orgName name) name with
  | none => none
  | some home => credentialsExit home

/-- A value received from `repoCh`, with its position in `repos`. -/
structure Job where
  idx : Nat
  repo : Repository
deriving DecidableEq, Repr

/-- Control state of one worker goroutine (cmd/root.go:99-113).  The number `k`
is the number of `wg.Done` calls the goroutine has deferred and not yet run.
* `recv k`: blocked at `for repo := range repoCh`;
* `got k j`: received `j`, about to run `defer wg.Done()`, `log.Printf` and the
  call of `git.Clone`;
* `cloning k j`: inside `git.Clone` for `j`;
* `failing k j e`: `git.Clone` returned the error `e`, which does not contain
  the marker; about to run `log.Fatal(err)`;
* `unwind k`: the loop has ended, `k` deferred `wg.Done` calls are still to
  run; `unwind 0` is the returned goroutine. -/
inductive Worker where
  | recv (k : Nat)
  | got (k : Nat) (j : Job)
  | cloning (k : Nat) (j : Job)
  | failing (k : Nat) (j : Job) (e : String)
  | unwind (k : Nat)
deriving DecidableEq, Repr

/-- Control state of the goroutine running `run` (cmd/root.go:116-121).
* `send i`: in `for _, repo := range repos`, about to send `repos[i]`
  (with `i = len(repos)`: about to `close(repoCh)`);
* `wait`: in `wg.Wait()`;
* `done`: `wg.Wait()` has returned and `run` returns. -/
inductive Main where
  | send (i : Nat)
  | wait
  | done
deriving DecidableEq, Repr

/-- Observable events of the pool, logged in the order they happen.
* `took w i`: worker `w` received job `i` from the channel;
* `call w i url path`: worker `w` invoked `git.Clone(url, path, _)` for job `i`;
* `ret w i err`: that call returned `err`;
* `release w`: worker `w` ran one deferred `wg.Done()`. -/
inductive Event where
  | took (w i : Nat)
  | call (w i : Nat) (url path : String)
  | ret (w i : Nat) (err : Option String)
  | release (w : Nat)
deriving DecidableEq, Repr

/-- State of the process while the pool runs.
* `wg`: the counter of the `sync.WaitGroup`;
* `closed`: whether `repoCh` has been closed;
* `fatal`: `some msg` once `log.Fatal(msg)` has ended the process;
* `exited`: `some msg` once the credentials closure has ended the process with
  `os.Exit(1)` after printing `msg`. -/
structure State where
  main : Main
  closed : Bool
  wg : Int
  workers : List Worker
  trace : List Event
  fatal : Option String
  exited : Option String
deriving DecidableEq, Repr

/-- One atomic action of one goroutine.
* `send w`: the rendezvous of `repoCh <- repo` in `run` with the receive of
  worker `w`;
* `close`: `close(repoCh)`;
* `wait`: `wg.Wait()` returns;
* `start w`: worker `w` runs `defer wg.Done()`, `log.Printf` and enters
  `git.Clone`;
* `ret w`: `git.Clone` returns in worker `w`, which tests the error;
* `abort w`: the credentials closure, run inside the `git.Clone` of worker `w`,
  calls `os.Exit(1)`;
* `fatal w`: worker `w` runs `log.Fatal(err)`;
* `leave w`: worker `w` finds the channel closed and leaves the loop;
* `done w`: worker `w` runs one deferred `wg.Done()`. -/
inductive Action where
  | send (w : Nat)
  | close
  | wait
  | start (w : Nat)
  | ret (w : Nat)
  | abort (w : Nat)
  | fatal (w : Nat)
  | leave (w : Nat)
  | done (w : Nat)
deriving DecidableEq, Repr

/-! ## The worker pool (cmd/root.go:94-121) -/

/-- The state after `wg.Add(len(repos))`, `make(chan ...)` and the loop
`for i := 0; i < concurrency; i++ { go func() {...}() }`: the loop body runs
`concurrency` times when that is positive and not at all otherwise. -/
def initState (p : Pool) (concurrency : Int) : State :=
  { main := .send 0
    closed := false
    wg := (p.repos.length : Int)
    workers := List.replicate concurrency.toNat (.recv 0)
    trace := []
    fatal := none
    exited := none }

/-- One action; `none` when the action is not enabled (the goroutine is not at
that statement, the operation would block, or the process has exited). -/
def step (p : Pool) (s : State) (a : Action) : Option State :=
  match s.fatal, s.exited with
  | none, none =>
    match a with
    | .send w =>
      match s.main, s.workers[w]? with
      | .send i, some (.recv k) =>
        match p.repos[i]? with
        | some r =>
          some { s with
            main := .send (i + 1)
            workers := s.workers.set w (.got k ⟨i, r⟩)
            trace := s.trace ++ [.took w i] }
        | none => none
      | _, _ => none
    | .close =>
      match s.main with
      | .send i =>
        if i = p.repos.length then some { s with main := .wait, closed := true }
        else none
      | _ => none
    | .wait =>
      match s.main with
      | .wait => if s.wg = 0 then some { s with main := .done } else none
      | _ => none
    | .start w =>
      match s.workers[w]? with
      | some (.got k j) =>
        some { s with
          workers := s.workers.set w (.cloning (k + 1) j)
          trace := s.trace ++
            [.call w j.idx (cloneURL p.orgName j.repo.Name) j.repo.Name] }
      | _ => none
    | .ret w =>
      match s.workers[w]? with
      | some (.cloning k j) =>
        match cloneExit p j.idx j.repo.Name with
        | some _ => none
        | none =>
          let err := p.Clone j.idx (cloneURL p.orgName j.repo.Name) j.repo.Name
          match fatalOf err with
          | none =>
            some { s with
              workers := s.workers.set w (.recv k)
              trace := s.trace ++ [.ret w j.idx err] }
          | some e =>
            some { s with
              workers := s.workers.set w (.failing k j e)
              trace := s.trace ++ [.ret w j.idx err] }
      | _ => none
    | .abort w =>
      match s.workers[w]? with
      | some (.cloning _ j) =>
        match cloneExit p j.idx j.repo.Name with
        | some e => some { s with exited := some e }
        | none => none
      | _ => none
    | .fatal w =>
      match s.workers[w]? with
      | some (.failing _ _ e) => some { s with fatal := some e }
      | _ => none
    | .leave w =>
      match s.workers[w]? with
      | some (.recv k) =>
        if s.closed then some { s with workers := s.workers.set w (.unwind k) }
        else none
      | _ => none
    | .done w =>
      match s.workers[w]? with
      | some (.unwind (k + 1)) =>
        some { s with
          wg := s.wg - 1
          workers := s.workers.set w (.unwind k)
          trace := s.trace ++ [.release w] }
      | _ => none
  | _, _ => none

/-- Runs a schedule, action by action. -/
def exec (p : Pool) : List Action → State → Option State
  | [], s => some s
  | a :: as, s =>
    match step p s a with
    | some s' => exec p as s'
    | none => none

/-! ## The sequential part of `run` (cmd/root.go:60-92) -/

/-- Result of the statements of `run` before the pool.
* `aborted msg listed`: `log.Fatal(msg)` ended the process; `listed` are the
  `Type` values of the `ListByOrg` calls made;
* `ready p listed`: the pool starts with job list `p.repos`. -/
inductive Setup where
  | aborted (msg : String) (listed : List String)
  | ready (orgName : String) (repos : List Repository) (listed : List String)
deriving DecidableEq, Repr

/-- Lines 61-92 of cmd/root.go. -/
def setup (world : World) (args : List String) : Setup :=
  match args with
  | [] => .aborted "missing organisation name. see --help" []
  | orgName :: _ =>
    match world.ListByOrg orgName "all" with
    | .error e => .aborted e ["all"]
    | .ok repos =>
      match world.ListByOrg orgName "forks" with
      | .error e => .aborted e ["all", "forks"]
      | .ok forks =>
        match world.ReadPassword with
        | .error e => .aborted e ["all", "forks"]
        | .ok _ => .ready orgName (repos ++ forks) ["all", "forks"]

/-- State of the whole process. -/
inductive Run where
  | aborted (msg : String) (listed : List String)
  | pool (orgName : String) (repos : List Repository) (listed : List String) (s : State)
deriving DecidableEq, Repr

/-- The function `run` under a schedule of the goroutines: the state reached,
`none` when the schedule cannot be executed. -/
def run (world : World) (args : List String) (concurrency : Int)
    (sched : List Action) : Option Run :=
  match setup world args with
  | .aborted msg listed =>
    match sched with
    | [] => some (.aborted msg listed)
    | _ :: _ => none
  | .ready orgName repos listed =>
    let p : Pool := ⟨orgName, repos, world.Clone, world.Callback⟩
    (exec p sched (initState p concurrency)).map (Run.pool orgName repos listed)

/-- The events of a process state (none before the pool). -/
def Run.trace : Run → List Event
  | .aborted _ _ => []
  | .pool _ _ _ s => s.trace

/-- The message of the `log.Fatal` that ended the process, if any. -/
def Run.fatal : Run → Option String
  | .aborted msg _ => some msg
  | .pool _ _ _ s => s.fatal

/-- The message printed before the `os.Exit(1)` of the credentials closure that
ended the process, if any. -/
def Run.exited : Run → Option String
  | .aborted _ _ => none
  | .pool _ _ _ s => s.exited

/-! ## The loop of the earlier single-threaded `main` (.main.go:40-51) -/

/-- A clone event without the worker. -/
inductive CloneEvent where
  | call (i : Nat) (url path : String)
  | ret (i : Nat) (err : Option String)
deriving DecidableEq, Repr

/-- The loop `for _, repo := range repos { ... }` of .main.go, started at
position `i` of the job list: the clone events in order and the message of
`log.Fatal`, if it was reached.  The credentials closure of .main.go (lines
63-66) has no exit, so every clone call of this loop returns. -/
def mainLoop (orgName : String) (Clone : Nat → String → String → Option String) :
    Nat → List Repository → List CloneEvent × Option String
  | _, [] => ([], none)
  | i, r :: rest =>
    let err := Clone i (cloneURL orgName r.Name) r.Name
    match fatalOf err with
    | none =>
      let out := mainLoop orgName Clone (i + 1) rest
      (.call i (cloneURL orgName r.Name) r.Name :: .ret i err :: out.1, out.2)
    | some e =>
      ([.call i (cloneURL orgName r.Name) r.Name, .ret i err], some e)

/-- The clone events of a pool trace, workers erased. -/
def cloneEvents : List Event → List CloneEvent
  | [] => []
  | .call _ i url path :: t => .call i url path :: cloneEvents t
  | .ret _ i err :: t => .ret i err :: cloneEvents t
  | _ :: t => cloneEvents t

/-! ## Observations on states and traces -/

/-- Number of jobs the dispatching loop has handed over. -/
def sent (p : Pool) (s : State) : Nat :=
  match s.main with
  | .send i => i
  | _ => p.repos.length

/-- Sum of a measure over the workers. -/
def wsum (f : Worker → Nat) (ws : List Worker) : Nat := (ws.map f).sum

/-- Deferred `wg.Done` calls of a worker that have not run yet. -/
def Worker.deferred : Worker → Nat
  | .recv k => k
  | .got k _ => k
  | .cloning k _ => k
  | .failing k _ _ => k
  | .unwind k => k

/-- Credits a worker still has to release for the jobs it has received. -/
def Worker.owed : Worker → Nat
  | .got k _ => k + 1
  | wk => wk.deferred

/-- One when the worker has received job `i` and not yet called `git.Clone`. -/
def Worker.gotN (i : Nat) : Worker → Nat
  | .got _ j => if j.idx = i then 1 else 0
  | _ => 0

/-- One when the worker is inside `git.Clone` for job `i`. -/
def Worker.cloningN (i : Nat) : Worker → Nat
  | .cloning _ j => if j.idx = i then 1 else 0
  | _ => 0

/-- One when the worker holds a job whose clone call has not returned. -/
def Worker.inflight : Worker → Nat
  | .got _ _ => 1
  | .cloning _ _ => 1
  | _ => 0

/-- One when the worker is inside `git.Clone`. -/
def Worker.busy : Worker → Nat
  | .cloning _ _ => 1
  | _ => 0

/-- One when the worker is about to run `log.Fatal`. -/
def Worker.failingN : Worker → Nat
  | .failing _ _ _ => 1
  | _ => 0

/-- The job a worker holds. -/
def Worker.job : Worker → Option Job
  | .got _ j => some j
  | .cloning _ j => some j
  | .failing _ j _ => some j
  | _ => none

/-- Steps a worker can still take on its own (used for termination). -/
def Worker.fuel : Worker → Nat
  | .recv k => k + 1
  | .got k _ => k + 4
  | .cloning k _ => k + 2
  | .failing k _ _ => k + 1
  | .unwind k => k

/-- The worker of an event. -/
def Event.worker : Event → Nat
  | .took w _ => w
  | .call w _ _ _ => w
  | .ret w _ _ => w
  | .release w => w

/-- Whether the event is a reception of job `i`. -/
def Event.isTook (i : Nat) : Event → Bool
  | .took _ j => j == i
  | _ => false

/-- Whether the event is an invocation of `git.Clone` for job `i`. -/
def Event.isCall (i : Nat) : Event → Bool
  | .call _ j _ _ => j == i
  | _ => false

/-- Whether the event is a return of `git.Clone` for job `i`. -/
def Event.isRet (i : Nat) : Event → Bool
  | .ret _ j _ => j == i
  | _ => false

/-- Whether the event is an invocation of `git.Clone`. -/
def Event.isAnyCall : Event → Bool
  | .call _ _ _ _ => true
  | _ => false

/-- Whether the event is a return of `git.Clone`. -/
def Event.isAnyRet : Event → Bool
  | .ret _ _ _ => true
  | _ => false

/-- Whether the event is an executed `wg.Done()`. -/
def Event.isRelease : Event → Bool
  | .release _ => true
  | _ => false

/-- A return of `git.Clone` with an error that leads to `log.Fatal`. -/
def Event.isFatalRet : Event → Bool
  | .ret _ _ err => (fatalOf err).isSome
  | _ => false

/-- Number of receptions of job `i`. -/
def tookN (i : Nat) (tr : List Event) : Nat := tr.countP (Event.isTook i)
/-- Number of `git.Clone` invocations for job `i`. -/
def callN (i : Nat) (tr : List Event) : Nat := tr.countP (Event.isCall i)
/-- Number of returns of `git.Clone` for job `i`. -/
def retN (i : Nat) (tr : List Event) : Nat := tr.countP (Event.isRet i)
/-- Number of `git.Clone` invocations. -/
def calls (tr : List Event) : Nat := tr.countP Event.isAnyCall
/-- Number of finished jobs: returns of `git.Clone`. -/
def finished (tr : List Event) : Nat := tr.countP Event.isAnyRet
/-- Number of executed `wg.Done()`. -/
def releases (tr : List Event) : Nat := tr.countP Event.isRelease
/-- The positions of the jobs `git.Clone` was invoked for, in order. -/
def calledJobs : List Event → List Nat
  | [] => []
  | .call _ i _ _ :: t => i :: calledJobs t
  | _ :: t => calledJobs t

/-- The target directories (second argument of `git.Clone`) of the invocations. -/
def calledPaths : List Event → List String
  | [] => []
  | .call _ _ _ path :: t => path :: calledPaths t
  | _ :: t => calledPaths t

/-! ## The step function as a relation -/

/-- The cases of `step`. -/
inductive Step (p : Pool) : State → Action → State → Prop where
  | send {s : State} {w i k : Nat} {r : Repository} :
      s.fatal = none → s.main = .send i → s.workers[w]? = some (.recv k) →
      p.repos[i]? = some r → s.exited = none →
      Step p s (.send w) { s with
        main := .send (i + 1)
        workers := s.workers.set w (.got k ⟨i, r⟩)
        trace := s.trace ++ [.took w i] }
  | close {s : State} :
      s.fatal = none → s.main = .send p.repos.length → s.exited = none →
      Step p s .close { s with main := .wait, closed := true }
  | wait {s : State} :
      s.fatal = none → s.main = .wait → s.wg = 0 → s.exited = none →
      Step p s .wait { s with main := .done }
  | start {s : State} {w k : Nat} {j : Job} :
      s.fatal = none → s.workers[w]? = some (.got k j) → s.exited = none →
      Step p s (.start w) { s with
        workers := s.workers.set w (.cloning (k + 1) j)
        trace := s.trace ++ [.call w j.idx (cloneURL p.orgName j.repo.Name) j.repo.Name] }
  | retOk {s : State} {w k : Nat} {j : Job} :
      s.fatal = none → s.workers[w]? = some (.cloning k j) →
      fatalOf (p.Clone j.idx (cloneURL p.orgName j.repo.Name) j.repo.Name) = none →
      s.exited = none → cloneExit p j.idx j.repo.Name = none →
      Step p s (.ret w) { s with
        workers := s.workers.set w (.recv k)
        trace := s.trace ++
          [.ret w j.idx (p.Clone j.idx (cloneURL p.orgName j.repo.Name) j.repo.Name)] }
  | retFatal {s : State} {w k : Nat} {j : Job} {e : String} :
      s.fatal = none → s.workers[w]? = some (.cloning k j) →
      fatalOf (p.Clone j.idx (cloneURL p.orgName j.repo.Name) j.repo.Name) = some e →
      s.exited = none → cloneExit p j.idx j.repo.Name = none →
      Step p s (.ret w) { s with
        workers := s.workers.set w (.failing k j e)
        trace := s.trace ++
          [.ret w j.idx (p.Clone j.idx (cloneURL p.orgName j.repo.Name) j.repo.Name)] }
  | abort {s : State} {w k : Nat} {j : Job} {e : String} :
      s.fatal = none → s.workers[w]? = some (.cloning k j) →
      cloneExit p j.idx j.repo.Name = some e → s.exited = none →
      Step p s (.abort w) { s with exited := some e }
  | fatal {s : State} {w k : Nat} {j : Job} {e : String} :
      s.fatal = none → s.workers[w]? = some (.failing k j e) → s.exited = none →
      Step p s (.fatal w) { s with fatal := some e }
  | leave {s : State} {w k : Nat} :
      s.fatal = none → s.workers[w]? = some (.recv k) → s.closed = true →
      s.exited = none →
      Step p s (.leave w) { s with workers := s.workers.set w (.unwind k) }
  | done {s : State} {w k : Nat} :
      s.fatal = none → s.workers[w]? = some (.unwind (k + 1)) → s.exited = none →
      Step p s (.done w) { s with
        wg := s.wg - 1
        workers := s.workers.set w (.unwind k)
        trace := s.trace ++ [.release w] }

/-! ## Invariants -/

/-- The counting invariant of the pool: how the counter of the wait group, the
position of the dispatching loop, the control states of the workers and the
events logged so far determine one another. -/
structure Inv (p : Pool) (s : State) : Prop where
  sent_le : sent p s ≤ p.repos.length
  closed_iff : s.closed = true ↔ ∀ i, s.main ≠ .send i
  wg_eq : s.wg + (sent p s : Int) = (p.repos.length : Int) + (wsum Worker.owed s.workers : Int)
  deferred_pos : ∀ wk ∈ s.workers, wk.busy + wk.failingN ≤ wk.deferred
  unwind_closed : ∀ k, Worker.unwind k ∈ s.workers → s.closed = true
  job_ok : ∀ wk ∈ s.workers, ∀ j, wk.job = some j → p.repos[j.idx]? = some j.repo
  done_wg : s.main = .done → s.wg = 0
  took_eq : ∀ i, tookN i s.trace = if i < sent p s then 1 else 0
  call_eq : ∀ i, callN i s.trace + wsum (Worker.gotN i) s.workers = tookN i s.trace
  ret_eq : ∀ i, callN i s.trace = retN i s.trace + wsum (Worker.cloningN i) s.workers
  flow : sent p s = finished s.trace + wsum Worker.inflight s.workers
  calls_eq : calls s.trace = finished s.trace + wsum Worker.busy s.workers
  released : s.wg + (releases s.trace : Int) = (p.repos.length : Int)

/-- Number of returns of `git.Clone` in worker `w`. -/
def retsBy (w : Nat) (tr : List Event) : Nat :=
  tr.countP (fun e => e.isAnyRet && e.worker == w)

/-- Number of `wg.Done()` executed by worker `w`. -/
def releasedBy (w : Nat) (tr : List Event) : Nat :=
  tr.countP (fun e => e.isRelease && e.worker == w)

/-- The invariant on the contents of the trace: the arguments and results of
the clone calls, what a `log.Fatal` or an exit of the credentials closure goes
back to, and the credits of each worker. -/
structure Inv2 (p : Pool) (s : State) : Prop where
  fatal_failing : ∀ e, s.fatal = some e →
    ∃ (w k : Nat) (j : Job), s.workers[w]? = some (.failing k j e)
  failing_ret : ∀ (w k : Nat) (j : Job) (e : String),
    s.workers[w]? = some (.failing k j e) →
    fatalOf (p.Clone j.idx (cloneURL p.orgName j.repo.Name) j.repo.Name) = some e ∧
    Event.ret w j.idx (p.Clone j.idx (cloneURL p.orgName j.repo.Name) j.repo.Name) ∈ s.trace
  ret_failing : ∀ (w i : Nat) (err : Option String) (m : String),
    Event.ret w i err ∈ s.trace → fatalOf err = some m →
    ∃ (k : Nat) (j : Job), s.workers[w]? = some (.failing k j m) ∧ j.idx = i
  call_args : ∀ (w i : Nat) (url path : String), Event.call w i url path ∈ s.trace →
    ∃ r, p.repos[i]? = some r ∧ url = cloneURL p.orgName r.Name ∧ path = r.Name
  ret_args : ∀ (w i : Nat) (err : Option String), Event.ret w i err ∈ s.trace →
    ∃ r, p.repos[i]? = some r ∧ err = p.Clone i (cloneURL p.orgName r.Name) r.Name
  last_fatal : ∀ (pre post : List Event) (ev : Event), s.trace = pre ++ ev :: post →
    ev.isFatalRet = true → ∀ e ∈ post, e.worker ≠ ev.worker
  per_worker : ∀ (w : Nat) (wk : Worker), s.workers[w]? = some wk →
    retsBy w s.trace + wk.busy = releasedBy w s.trace + wk.deferred
  in_range : ∀ e ∈ s.trace, e.worker < s.workers.length
  exit_cause : ∀ e, s.exited = some e →
    ∃ (w k : Nat) (j : Job), s.workers[w]? = some (.cloning k j) ∧
      cloneExit p j.idx j.repo.Name = some e

/-- Steps the goroutine of `run` can still take on its own. -/
def Main.fuel : Main → Nat
  | .send _ => 2
  | .wait => 1
  | .done => 0

/-- A bound on the number of actions that can still happen: every action
lowers it by one. -/
def fuel (p : Pool) (s : State) : Nat :=
  4 * (p.repos.length - sent p s) + wsum Worker.fuel s.workers + s.main.fuel +
    (if s.fatal.isSome || s.exited.isSome then 0 else 1)

/-- The process has ended by the return of `run` or by `log.Fatal`. -/
def State.ended (s : State) : Bool :=
  s.main == .done || s.fatal.isSome

/-- The process has ended in one of its three ways: the return of `run`,
`log.Fatal`, or the `os.Exit(1)` of the credentials closure. -/
def State.stopped (s : State) : Bool :=
  s.ended || s.exited.isSome

/-- No clone call made for a job of the list returns an error that leads to
`log.Fatal`: each returns nil or an error containing the marker. -/
def NoFatal (p : Pool) : Prop :=
  ∀ (i : Nat) (r : Repository), p.repos[i]? = some r →
    fatalOf (p.Clone i (cloneURL p.orgName r.Name) r.Name) = none

/-- Every clone call made for a job of the list returns: the credentials
closure does not end the process during it. -/
def NoExit (p : Pool) : Prop :=
  ∀ (i : Nat) (r : Repository), p.repos[i]? = some r → cloneExit p i r.Name = none

/-! ## Concrete runs -/

/-- Three jobs, every clone succeeds. -/
def demoPool : Pool :=
  ⟨"org", [⟨"repoA"⟩, ⟨"repoB"⟩, ⟨"repoC"⟩], fun _ _ _ => none,
    fun _ _ _ => some (.ok "/home/user")⟩

/-- A complete interleaving of two workers on `demoPool`. -/
def demoSched : List Action :=
  [.send 0, .send 1, .start 1, .start 0, .ret 1, .send 1, .ret 0, .start 1, .ret 1, .close,
   .leave 0, .leave 1, .done 0, .done 1, .done 1, .wait]

/-- The state `demoSched` ends in. -/
def demoFinal : State :=
  { main := .done
    closed := true
    wg := 0
    workers := [.unwind 0, .unwind 0]
    trace := [.took 0 0, .took 1 1, .call 1 1 "git@github.com:org/repoB" "repoB",
      .call 0 0 "git@github.com:org/repoA" "repoA", .ret 1 1 none, .took 1 2, .ret 0 0 none,
      .call 1 2 "git@github.com:org/repoC" "repoC", .ret 1 2 none, .release 0, .release 1,
      .release 1]
    fatal := none
    exited := none }

/-- The state after the first six actions of `demoSched`: both workers hold a
job and the dispatching loop has handed over all three. -/
def demoMid : State :=
  { main := .send 3
    closed := false
    wg := 3
    workers := [.cloning 1 ⟨0, ⟨"repoA"⟩⟩, .got 1 ⟨2, ⟨"repoC"⟩⟩]
    trace := [.took 0 0, .took 1 1, .call 1 1 "git@github.com:org/repoB" "repoB",
      .call 0 0 "git@github.com:org/repoA" "repoA", .ret 1 1 none, .took 1 2]
    fatal := none
    exited := none }

/-- Two jobs; the clone of the first returns the error of an existing
directory, the clone of the second succeeds. -/
def skipPool : Pool :=
  ⟨"org", [⟨"repoA"⟩, ⟨"repoB"⟩],
    fun i _ _ => if i = 0 then some "repoA exists and is not an empty directory" else none,
    fun i _ _ => if i = 0 then none else some (.ok "/home/user")⟩

/-- A complete run of one worker on `skipPool`. -/
def skipSched : List Action :=
  [.send 0, .start 0, .ret 0, .send 0, .start 0, .ret 0, .close, .leave 0, .done 0, .done 0,
   .wait]

/-- The state `skipSched` ends in. -/
def skipFinal : State :=
  { main := .done
    closed := true
    wg := 0
    workers := [.unwind 0]
    trace := [.took 0 0, .call 0 0 "git@github.com:org/repoA" "repoA",
      .ret 0 0 (some "repoA exists and is not an empty directory"), .took 0 1,
      .call 0 1 "git@github.com:org/repoB" "repoB", .ret 0 1 none, .release 0, .release 0]
    fatal := none
    exited := none }

/-! ## One worker against the sequential loop -/

/-- The loop of .main.go on the job list of the pool, from position `i` on. -/
def seqFrom (p : Pool) (i : Nat) : List CloneEvent × Option String :=
  mainLoop p.orgName p.Clone i (p.repos.drop i)

/-- With a single worker: the clone events the sequential loop would still
produce from the point the pool has reached, and its result. -/
def serialRest (p : Pool) (s : State) : List CloneEvent × Option String :=
  match s.workers with
  | [.got _ j] => seqFrom p j.idx
  | [.cloning _ j] => ((seqFrom p j.idx).1.tail, (seqFrom p j.idx).2)
  | [.failing _ _ e] => ([], some e)
  | _ => seqFrom p (sent p s)

/-- The invariant of the pool with one worker: the clone events logged so far,
followed by what the sequential loop would still do, are the events of the
sequential loop on the whole list. -/
structure Serial (p : Pool) (s : State) : Prop where
  one : s.workers.length = 1
  held : ∀ wk ∈ s.workers, ∀ j, wk.job = some j → sent p s = j.idx + 1
  events : cloneEvents s.trace ++ (serialRest p s).1 = (seqFrom p 0).1
  result : (serialRest p s).2 = (seqFrom p 0).2

/-- One job whose clone fails with an authentication error, then one more. -/
def fatalPool : Pool :=
  ⟨"org", [⟨"repoA"⟩, ⟨"repoB"⟩],
    fun i _ _ => if i = 0 then some "authentication required" else none,
    fun _ _ _ => some (.ok "/home/user")⟩

/-- The run of one worker on `fatalPool` up to `log.Fatal`. -/
def fatalSched : List Action := [.send 0, .start 0, .ret 0, .fatal 0]

/-- The state `fatalSched` ends in. -/
def fatalFinal : State :=
  { main := .send 1
    closed := false
    wg := 2
    workers := [.failing 1 ⟨0, ⟨"repoA"⟩⟩ "authentication required"]
    trace := [.took 0 0, .call 0 0 "git@github.com:org/repoA" "repoA",
      .ret 0 0 (some "authentication required")]
    fatal := some "authentication required"
    exited := none }

/-! ## Concrete worlds -/

/-- An organisation with one repository of its own and one fork: the "all"
listing has both, the "forks" listing has the fork. -/
def forkWorld : World :=
  ⟨fun _ t => if t = "forks" then .ok [⟨"forkB"⟩] else .ok [⟨"repoA"⟩, ⟨"forkB"⟩],
    .ok "secret", fun _ _ _ => none, fun _ _ _ => some (.ok "/home/user")⟩

/-- Two workers on the jobs of `forkWorld`, up to the point where both are
inside `git.Clone` for the fork. -/
def forkSched : List Action :=
  [.send 0, .send 1, .start 0, .ret 0, .send 0, .start 1, .start 0]

/-- The state `forkSched` ends in. -/
def forkState : State :=
  { main := .send 3
    closed := false
    wg := 3
    workers := [.cloning 2 ⟨2, ⟨"forkB"⟩⟩, .cloning 1 ⟨1, ⟨"forkB"⟩⟩]
    trace := [.took 0 0, .took 1 1, .call 0 0 "git@github.com:org/repoA" "repoA",
      .ret 0 0 none, .took 0 2, .call 1 1 "git@github.com:org/forkB" "forkB",
      .call 0 2 "git@github.com:org/forkB" "forkB"]
    fatal := none
    exited := none }

/-- Both listings succeed, the passphrase cannot be read. -/
def pwWorld : World :=
  ⟨fun _ t => if t = "forks" then .ok [] else .ok [⟨"repoA"⟩],
    .error "inappropriate ioctl for device", fun _ _ _ => none,
    fun _ _ _ => some (.ok "/home/user")⟩

/-- Listings without a common name; the clone of the job at position 1 fails
with an authentication error. -/
def authWorld : World :=
  ⟨fun _ t => if t = "forks" then .ok [⟨"forkC"⟩] else .ok [⟨"repoA"⟩, ⟨"repoB"⟩],
    .ok "secret", fun i _ _ => if i = 1 then some "authentication required" else none,
    fun _ _ _ => some (.ok "/home/user")⟩

/-- Two workers on `authWorld` up to the `log.Fatal` of worker 1. -/
def authSched : List Action :=
  [.send 0, .send 1, .start 0, .start 1, .ret 1, .ret 0, .send 0, .fatal 1]

/-- The state `authSched` ends in. -/
def authState : State :=
  { main := .send 3
    closed := false
    wg := 3
    workers := [.got 1 ⟨2, ⟨"forkC"⟩⟩,
      .failing 1 ⟨1, ⟨"repoB"⟩⟩ "authentication required"]
    trace := [.took 0 0, .took 1 1, .call 0 0 "git@github.com:org/repoA" "repoA",
      .call 1 1 "git@github.com:org/repoB" "repoB",
      .ret 1 1 (some "authentication required"), .ret 0 0 none, .took 0 2]
    fatal := some "authentication required"
    exited := none }

/-- Listings without a common name, every clone succeeds. -/
def plainWorld : World :=
  ⟨fun _ t => if t = "forks" then .ok [⟨"forkC"⟩] else .ok [⟨"repoA"⟩, ⟨"repoB"⟩],
    .ok "secret", fun _ _ _ => none, fun _ _ _ => some (.ok "/home/user")⟩

/-- The state `demoSched` ends in on the jobs of `plainWorld`. -/
def plainFinal : State :=
  { main := .done
    closed := true
    wg := 0
    workers := [.unwind 0, .unwind 0]
    trace := [.took 0 0, .took 1 1, .call 1 1 "git@github.com:org/repoB" "repoB",
      .call 0 0 "git@github.com:org/repoA" "repoA", .ret 1 1 none, .took 1 2, .ret 0 0 none,
      .call 1 2 "git@github.com:org/forkC" "forkC", .ret 1 2 none, .release 0, .release 1,
      .release 1]
    fatal := none
    exited := none }

/-- The "all" listing succeeds, the "forks" listing fails. -/
def forksDownWorld : World :=
  ⟨fun _ t => if t = "forks" then .error "503 Service Unavailable" else .ok [⟨"repoA"⟩],
    .ok "secret", fun _ _ _ => none, fun _ _ _ => some (.ok "/home/user")⟩

/-- Listings and passphrase fine, but the home directory cannot be found when
libgit2 asks for the credentials. -/
def homelessWorld : World :=
  ⟨fun _ t => if t = "forks" then .ok [] else .ok [⟨"repoA"⟩, ⟨"repoB"⟩],
    .ok "secret", fun _ _ _ => none,
    fun _ _ _ => some (.error "blank output when reading home directory")⟩

/-- One worker on `homelessWorld` up to the exit inside the first clone. -/
def homelessSched : List Action := [.send 0, .start 0, .abort 0]

/-- The state `homelessSched` ends in. -/
def homelessState : State :=
  { main := .send 1
    closed := false
    wg := 2
    workers := [.cloning 1 ⟨0, ⟨"repoA"⟩⟩]
    trace := [.took 0 0, .call 0 0 "git@github.com:org/repoA" "repoA"]
    fatal := none
    exited := some "blank output when reading home directory" }
/-! ## Theorems -/

set_option linter.unnecessarySeqFocus false

theorem step_sound {p : Pool} {s s' : State} {a : Action}
    (h : step p s a = some s') : Step p s a s' := by
  unfold step at h
  split at h
  · rename_i hf hx
    cases a with
    | send w =>
      simp only at h
      split at h
      · rename_i i k hm hw
        split at h
        · rename_i r hr
          simp only [Option.some.injEq] at h
          subst h
          exact Step.send hf hm hw hr hx
        · simp at h
      · simp at h
    | close =>
      simp only at h
      split at h
      · rename_i i hm
        split at h
        · rename_i hi
          simp only [Option.some.injEq] at h
          subst h; subst hi
          exact Step.close hf hm hx
        · simp at h
      · simp at h
    | wait =>
      simp only at h
      split at h
      · rename_i hm
        split at h
        · rename_i hz
          simp only [Option.some.injEq] at h
          subst h
          exact Step.wait hf hm hz hx
        · simp at h
      · simp at h
    | start w =>
      simp only at h
      split at h
      · rename_i k j hw
        simp only [Option.some.injEq] at h
        subst h
        exact Step.start hf hw hx
      · simp at h
    | ret w =>
      simp only at h
      split at h
      · rename_i k j hw
        split at h
        · simp at h
        · rename_i hce
          split at h
          · rename_i he
            simp only [Option.some.injEq] at h
            subst h
            exact Step.retOk hf hw he hx hce
          · rename_i e he
            simp only [Option.some.injEq] at h
            subst h
            exact Step.retFatal hf hw he hx hce
      · simp at h
    | abort w =>
      simp only at h
      split at h
      · rename_i k j hw
        split at h
        · rename_i e hce
          simp only [Option.some.injEq] at h
          subst h
          exact Step.abort hf hw hce hx
        · simp at h
      · simp at h
    | fatal w =>
      simp only at h
      split at h
      · rename_i k j e hw
        simp only [Option.some.injEq] at h
        subst h
        exact Step.fatal hf hw hx
      · simp at h
    | leave w =>
      simp only at h
      split at h
      · rename_i k hw
        split at h
        · rename_i hc
          simp only [Option.some.injEq] at h
          subst h
          exact Step.leave hf hw hc hx
        · simp at h
      · simp at h
    | done w =>
      simp only at h
      split at h
      · rename_i k hw
        simp only [Option.some.injEq] at h
        subst h
        exact Step.done hf hw hx
      · simp at h
  · simp at h

theorem step_complete {p : Pool} {s s' : State} {a : Action}
    (h : Step p s a s') : step p s a = some s' := by
  cases h <;> simp_all [step]

/-! ### Sums over the workers -/

theorem wsum_set {f : Worker → Nat} {ws : List Worker} {w : Nat} {old : Worker}
    (x : Worker) (h : ws[w]? = some old) :
    wsum f (ws.set w x) + f old = wsum f ws + f x := by
  induction ws generalizing w with
  | nil => simp at h
  | cons a t ih =>
    cases w with
    | zero =>
      simp only [List.getElem?_cons_zero, Option.some.injEq] at h
      subst h
      simp only [wsum, List.set_cons_zero, List.map_cons, List.sum_cons]
      omega
    | succ n =>
      simp only [List.getElem?_cons_succ] at h
      have := ih h
      simp only [wsum, List.set_cons_succ, List.map_cons, List.sum_cons] at this ⊢
      omega

theorem wsum_le_length {f : Worker → Nat} (hf : ∀ wk, f wk ≤ 1) (ws : List Worker) :
    wsum f ws ≤ ws.length := by
  induction ws with
  | nil => simp [wsum]
  | cons a t ih =>
    have := hf a
    simp only [wsum, List.map_cons, List.sum_cons, List.length_cons] at ih ⊢
    omega

theorem wsum_eq_zero {f : Worker → Nat} {ws : List Worker} (h : wsum f ws = 0) :
    ∀ wk ∈ ws, f wk = 0 := by
  induction ws with
  | nil => simp
  | cons a t ih =>
    simp only [wsum, List.map_cons, List.sum_cons] at h
    intro wk hwk
    rcases List.mem_cons.1 hwk with rfl | hmem
    · omega
    · exact ih (by simp only [wsum]; omega) wk hmem

theorem wsum_pos {f : Worker → Nat} {ws : List Worker} (h : 0 < wsum f ws) :
    ∃ (w : Nat) (wk : Worker), ws[w]? = some wk ∧ 0 < f wk := by
  induction ws with
  | nil => simp [wsum] at h
  | cons a t ih =>
    simp only [wsum, List.map_cons, List.sum_cons] at h
    by_cases ha : 0 < f a
    · exact ⟨0, a, by simp, ha⟩
    · obtain ⟨w, wk, hw, hpos⟩ := ih (by simp only [wsum]; omega)
      exact ⟨w + 1, wk, by simpa using hw, hpos⟩

theorem wsum_replicate (f : Worker → Nat) (n : Nat) (wk : Worker) :
    wsum f (List.replicate n wk) = n * f wk := by
  induction n with
  | zero => simp [wsum]
  | succ n ih =>
    simp only [wsum, List.replicate_succ, List.map_cons, List.sum_cons] at ih ⊢
    rw [ih]; ring

theorem mem_of_get? {ws : List Worker} {w : Nat} {wk : Worker} (h : ws[w]? = some wk) :
    wk ∈ ws := List.mem_iff_getElem?.2 ⟨w, h⟩

/-! ### Counting events -/

theorem tookN_snoc (i : Nat) (tr : List Event) (e : Event) :
    tookN i (tr ++ [e]) = tookN i tr + if e.isTook i then 1 else 0 := by
  simp [tookN, List.countP_append, List.countP_singleton]

theorem callN_snoc (i : Nat) (tr : List Event) (e : Event) :
    callN i (tr ++ [e]) = callN i tr + if e.isCall i then 1 else 0 := by
  simp [callN, List.countP_append, List.countP_singleton]

theorem retN_snoc (i : Nat) (tr : List Event) (e : Event) :
    retN i (tr ++ [e]) = retN i tr + if e.isRet i then 1 else 0 := by
  simp [retN, List.countP_append, List.countP_singleton]

theorem calls_snoc (tr : List Event) (e : Event) :
    calls (tr ++ [e]) = calls tr + if e.isAnyCall then 1 else 0 := by
  simp [calls, List.countP_append, List.countP_singleton]

theorem finished_snoc (tr : List Event) (e : Event) :
    finished (tr ++ [e]) = finished tr + if e.isAnyRet then 1 else 0 := by
  simp [finished, List.countP_append, List.countP_singleton]

theorem releases_snoc (tr : List Event) (e : Event) :
    releases (tr ++ [e]) = releases tr + if e.isRelease then 1 else 0 := by
  simp [releases, List.countP_append, List.countP_singleton]

/-! ### The invariant holds initially and is kept by every step -/

theorem inv_init (p : Pool) (c : Int) : Inv p (initState p c) := by
  constructor <;>
    simp [initState, sent, wsum_replicate, Worker.owed, Worker.deferred, Worker.busy,
      Worker.failingN, Worker.job, Worker.gotN, Worker.cloningN, Worker.inflight,
      tookN, callN, retN, finished, calls, releases, List.mem_replicate]

theorem inv_step {p : Pool} {s s' : State} {a : Action}
    (hs : Inv p s) (h : Step p s a s') : Inv p s' := by
  cases h with
  | @send w i k r hf hm hw hr =>
    have hsent : sent p s = i := by simp [sent, hm]
    have hlt : i < p.repos.length := (List.getElem?_eq_some.1 hr).1
    have h1 := wsum_set (f := Worker.owed) (.got k ⟨i, r⟩) hw
    have h2 := fun i' => wsum_set (f := Worker.gotN i') (.got k ⟨i, r⟩) hw
    have h3 := fun i' => wsum_set (f := Worker.cloningN i') (.got k ⟨i, r⟩) hw
    have h4 := wsum_set (f := Worker.inflight) (.got k ⟨i, r⟩) hw
    have h5 := wsum_set (f := Worker.busy) (.got k ⟨i, r⟩) hw
    simp only [Worker.owed, Worker.deferred, Worker.gotN, Worker.cloningN, Worker.inflight,
      Worker.busy] at h1 h2 h3 h4 h5
    have := hs.wg_eq
    have := hs.flow
    have := hs.calls_eq
    have := hs.released
    constructor
    · simp [sent]; omega
    · have := hs.closed_iff; simp_all
    · simp only [sent]; omega
    · intro wk hwk
      rcases List.mem_or_eq_of_mem_set hwk with hmem | rfl
      · exact hs.deferred_pos wk hmem
      · simp [Worker.busy, Worker.failingN]
    · intro k' hk'
      rcases List.mem_or_eq_of_mem_set hk' with hmem | heq
      · have := hs.unwind_closed k' hmem
        have := hs.closed_iff
        simp_all
      · simp at heq
    · intro wk hwk j hj
      rcases List.mem_or_eq_of_mem_set hwk with hmem | rfl
      · exact hs.job_ok wk hmem j hj
      · simp only [Worker.job, Option.some.injEq] at hj
        subst hj; exact hr
    · simp
    · intro i'
      have := hs.took_eq i'
      rw [hsent] at this
      simp only [tookN_snoc, Event.isTook, sent, beq_iff_eq]
      split_ifs at * <;> omega
    · intro i'
      have := hs.call_eq i'
      have := h2 i'
      simp only [tookN_snoc, callN_snoc, Event.isTook, Event.isCall, beq_iff_eq] at *
      split_ifs at * <;> omega
    · intro i'
      have := hs.ret_eq i'
      have := h3 i'
      simp only [retN_snoc, callN_snoc, Event.isRet, Event.isCall] at *
      simp; omega
    · rw [hsent] at *; simp only [sent, finished_snoc, Event.isAnyRet]; simp; omega
    · simp only [calls_snoc, finished_snoc, Event.isAnyRet, Event.isAnyCall]; simp; omega
    · simp only [releases_snoc, Event.isRelease]; simp; omega
  | @close hf hm =>
    have hsent : sent p s = p.repos.length := by simp [sent, hm]
    obtain ⟨a1, a2, a3, a4, a5, a6, a7, a8, a9, a10, a11, a12, a13⟩ := hs
    constructor
    · simp [sent]
    · simp
    · rw [hsent] at a3; simpa [sent] using a3
    · exact a4
    · intro _ _; rfl
    · exact a6
    · simp
    · rw [hsent] at a8; simpa [sent] using a8
    · exact a9
    · exact a10
    · rw [hsent] at a11; simpa [sent] using a11
    · exact a12
    · exact a13
  | @wait hf hm hz =>
    have hsent : sent p s = p.repos.length := by simp [sent, hm]
    obtain ⟨a1, a2, a3, a4, a5, a6, a7, a8, a9, a10, a11, a12, a13⟩ := hs
    constructor
    · simp [sent]
    · simp only [hm] at a2; simpa using a2
    · rw [hsent] at a3; simpa [sent] using a3
    · exact a4
    · exact a5
    · exact a6
    · intro _; exact hz
    · rw [hsent] at a8; simpa [sent] using a8
    · exact a9
    · exact a10
    · rw [hsent] at a11; simpa [sent] using a11
    · exact a12
    · exact a13
  | @start w k j hf hw =>
    have h1 := wsum_set (f := Worker.owed) (.cloning (k + 1) j) hw
    have h2 := fun i' => wsum_set (f := Worker.gotN i') (.cloning (k + 1) j) hw
    have h3 := fun i' => wsum_set (f := Worker.cloningN i') (.cloning (k + 1) j) hw
    have h4 := wsum_set (f := Worker.inflight) (.cloning (k + 1) j) hw
    have h5 := wsum_set (f := Worker.busy) (.cloning (k + 1) j) hw
    simp only [Worker.owed, Worker.deferred, Worker.gotN, Worker.cloningN, Worker.inflight,
      Worker.busy] at h1 h2 h3 h4 h5
    obtain ⟨a1, a2, a3, a4, a5, a6, a7, a8, a9, a10, a11, a12, a13⟩ := hs
    have hsent : ∀ (ws : List Worker) (tr : List Event),
        sent p { s with workers := ws, trace := tr } = sent p s := fun _ _ => rfl
    constructor
    · rw [hsent]; exact a1
    · exact a2
    · rw [hsent]; simp only; omega
    · intro wk hwk
      rcases List.mem_or_eq_of_mem_set hwk with hmem | rfl
      · exact a4 wk hmem
      · simp [Worker.busy, Worker.failingN, Worker.deferred]
    · intro k' hk'
      rcases List.mem_or_eq_of_mem_set hk' with hmem | heq
      · exact a5 k' hmem
      · simp at heq
    · intro wk hwk j' hj
      rcases List.mem_or_eq_of_mem_set hwk with hmem | rfl
      · exact a6 wk hmem j' hj
      · simp only [Worker.job, Option.some.injEq] at hj
        subst hj; exact a6 _ (mem_of_get? hw) _ rfl
    · exact a7
    · intro i'
      rw [hsent, ← a8 i']
      simp [tookN_snoc, Event.isTook]
    · intro i'
      have := a9 i'
      have := h2 i'
      simp only [tookN_snoc, callN_snoc, Event.isTook, Event.isCall, beq_iff_eq] at *
      split_ifs at * <;> simp at * <;> omega
    · intro i'
      have := a10 i'
      have := h3 i'
      simp only [retN_snoc, callN_snoc, Event.isRet, Event.isCall, beq_iff_eq] at *
      split_ifs at * <;> simp at * <;> omega
    · rw [hsent]; simp only [finished_snoc, Event.isAnyRet]; simp; omega
    · simp only [calls_snoc, finished_snoc, Event.isAnyRet, Event.isAnyCall]; simp; omega
    · simp only [releases_snoc, Event.isRelease]; simpa using a13
  | @retOk w k j hf hw he =>
    have h1 := wsum_set (f := Worker.owed) (.recv k) hw
    have h2 := fun i' => wsum_set (f := Worker.gotN i') (.recv k) hw
    have h3 := fun i' => wsum_set (f := Worker.cloningN i') (.recv k) hw
    have h4 := wsum_set (f := Worker.inflight) (.recv k) hw
    have h5 := wsum_set (f := Worker.busy) (.recv k) hw
    simp only [Worker.owed, Worker.deferred, Worker.gotN, Worker.cloningN, Worker.inflight,
      Worker.busy] at h1 h2 h3 h4 h5
    obtain ⟨a1, a2, a3, a4, a5, a6, a7, a8, a9, a10, a11, a12, a13⟩ := hs
    have hsent : ∀ (ws : List Worker) (tr : List Event),
        sent p { s with workers := ws, trace := tr } = sent p s := fun _ _ => rfl
    constructor
    · rw [hsent]; exact a1
    · exact a2
    · rw [hsent]; simp only; omega
    · intro wk hwk
      rcases List.mem_or_eq_of_mem_set hwk with hmem | rfl
      · exact a4 wk hmem
      · simp [Worker.busy, Worker.failingN, Worker.deferred]
    · intro k' hk'
      rcases List.mem_or_eq_of_mem_set hk' with hmem | heq
      · exact a5 k' hmem
      · simp at heq
    · intro wk hwk j' hj
      rcases List.mem_or_eq_of_mem_set hwk with hmem | rfl
      · exact a6 wk hmem j' hj
      · simp [Worker.job] at hj
    · exact a7
    · intro i'
      rw [hsent, ← a8 i']
      simp [tookN_snoc, Event.isTook]
    · intro i'
      have := a9 i'
      have := h2 i'
      simp only [tookN_snoc, callN_snoc, Event.isTook, Event.isCall, beq_iff_eq] at *
      split_ifs at * <;> simp at * <;> omega
    · intro i'
      have := a10 i'
      have := h3 i'
      simp only [retN_snoc, callN_snoc, Event.isRet, Event.isCall, beq_iff_eq] at *
      split_ifs at * <;> simp at * <;> omega
    · rw [hsent]; simp only [finished_snoc, Event.isAnyRet]; simp; omega
    · simp only [calls_snoc, finished_snoc, Event.isAnyRet, Event.isAnyCall]; simp; omega
    · simp only [releases_snoc, Event.isRelease]; simpa using a13
  | @retFatal w k j e hf hw he =>
    have h1 := wsum_set (f := Worker.owed) (.failing k j e) hw
    have h2 := fun i' => wsum_set (f := Worker.gotN i') (.failing k j e) hw
    have h3 := fun i' => wsum_set (f := Worker.cloningN i') (.failing k j e) hw
    have h4 := wsum_set (f := Worker.inflight) (.failing k j e) hw
    have h5 := wsum_set (f := Worker.busy) (.failing k j e) hw
    simp only [Worker.owed, Worker.deferred, Worker.gotN, Worker.cloningN, Worker.inflight,
      Worker.busy] at h1 h2 h3 h4 h5
    obtain ⟨a1, a2, a3, a4, a5, a6, a7, a8, a9, a10, a11, a12, a13⟩ := hs
    have hsent : ∀ (ws : List Worker) (tr : List Event),
        sent p { s with workers := ws, trace := tr } = sent p s := fun _ _ => rfl
    have hk := a4 _ (mem_of_get? hw)
    simp only [Worker.busy, Worker.failingN, Worker.deferred] at hk
    constructor
    · rw [hsent]; exact a1
    · exact a2
    · rw [hsent]; simp only; omega
    · intro wk hwk
      rcases List.mem_or_eq_of_mem_set hwk with hmem | rfl
      · exact a4 wk hmem
      · simp only [Worker.busy, Worker.failingN, Worker.deferred]; omega
    · intro k' hk'
      rcases List.mem_or_eq_of_mem_set hk' with hmem | heq
      · exact a5 k' hmem
      · simp at heq
    · intro wk hwk j' hj
      rcases List.mem_or_eq_of_mem_set hwk with hmem | rfl
      · exact a6 wk hmem j' hj
      · simp only [Worker.job, Option.some.injEq] at hj
        subst hj; exact a6 _ (mem_of_get? hw) _ rfl
    · exact a7
    · intro i'
      rw [hsent, ← a8 i']
      simp [tookN_snoc, Event.isTook]
    · intro i'
      have := a9 i'
      have := h2 i'
      simp only [tookN_snoc, callN_snoc, Event.isTook, Event.isCall, beq_iff_eq] at *
      split_ifs at * <;> simp at * <;> omega
    · intro i'
      have := a10 i'
      have := h3 i'
      simp only [retN_snoc, callN_snoc, Event.isRet, Event.isCall, beq_iff_eq] at *
      split_ifs at * <;> simp at * <;> omega
    · rw [hsent]; simp only [finished_snoc, Event.isAnyRet]; simp; omega
    · simp only [calls_snoc, finished_snoc, Event.isAnyRet, Event.isAnyCall]; simp; omega
    · simp only [releases_snoc, Event.isRelease]; simpa using a13
  | @fatal w k j e hf hw =>
    obtain ⟨a1, a2, a3, a4, a5, a6, a7, a8, a9, a10, a11, a12, a13⟩ := hs
    exact ⟨a1, a2, a3, a4, a5, a6, a7, a8, a9, a10, a11, a12, a13⟩
  | @abort w k j e hf hw hce =>
    obtain ⟨a1, a2, a3, a4, a5, a6, a7, a8, a9, a10, a11, a12, a13⟩ := hs
    exact ⟨a1, a2, a3, a4, a5, a6, a7, a8, a9, a10, a11, a12, a13⟩
  | @leave w k hf hw hc =>
    have h1 := wsum_set (f := Worker.owed) (.unwind k) hw
    have h2 := fun i' => wsum_set (f := Worker.gotN i') (.unwind k) hw
    have h3 := fun i' => wsum_set (f := Worker.cloningN i') (.unwind k) hw
    have h4 := wsum_set (f := Worker.inflight) (.unwind k) hw
    have h5 := wsum_set (f := Worker.busy) (.unwind k) hw
    simp only [Worker.owed, Worker.deferred, Worker.gotN, Worker.cloningN, Worker.inflight,
      Worker.busy] at h1 h2 h3 h4 h5
    obtain ⟨a1, a2, a3, a4, a5, a6, a7, a8, a9, a10, a11, a12, a13⟩ := hs
    have hsent : ∀ (ws : List Worker),
        sent p { s with workers := ws } = sent p s := fun _ => rfl
    constructor
    · rw [hsent]; exact a1
    · exact a2
    · rw [hsent]; simp only; omega
    · intro wk hwk
      rcases List.mem_or_eq_of_mem_set hwk with hmem | rfl
      · exact a4 wk hmem
      · simp [Worker.busy, Worker.failingN, Worker.deferred]
    · intro _ _; exact hc
    · intro wk hwk j' hj
      rcases List.mem_or_eq_of_mem_set hwk with hmem | rfl
      · exact a6 wk hmem j' hj
      · simp [Worker.job] at hj
    · exact a7
    · intro i'; rw [hsent]; exact a8 i'
    · intro i'
      have := a9 i'
      have := h2 i'
      simp only at *; omega
    · intro i'
      have := a10 i'
      have := h3 i'
      simp only at *; omega
    · rw [hsent]; simp only; omega
    · simp only; omega
    · exact a13
  | @done w k hf hw =>
    have h1 := wsum_set (f := Worker.owed) (.unwind k) hw
    have h2 := fun i' => wsum_set (f := Worker.gotN i') (.unwind k) hw
    have h3 := fun i' => wsum_set (f := Worker.cloningN i') (.unwind k) hw
    have h4 := wsum_set (f := Worker.inflight) (.unwind k) hw
    have h5 := wsum_set (f := Worker.busy) (.unwind k) hw
    simp only [Worker.owed, Worker.deferred, Worker.gotN, Worker.cloningN, Worker.inflight,
      Worker.busy] at h1 h2 h3 h4 h5
    obtain ⟨a1, a2, a3, a4, a5, a6, a7, a8, a9, a10, a11, a12, a13⟩ := hs
    have hsent : ∀ (c : Int) (ws : List Worker) (tr : List Event),
        sent p { s with wg := c, workers := ws, trace := tr } = sent p s := fun _ _ _ => rfl
    constructor
    · rw [hsent]; exact a1
    · exact a2
    · rw [hsent]; simp only; omega
    · intro wk hwk
      rcases List.mem_or_eq_of_mem_set hwk with hmem | rfl
      · exact a4 wk hmem
      · simp [Worker.busy, Worker.failingN, Worker.deferred]
    · intro k' _; exact a5 _ (mem_of_get? hw)
    · intro wk hwk j' hj
      rcases List.mem_or_eq_of_mem_set hwk with hmem | rfl
      · exact a6 wk hmem j' hj
      · simp [Worker.job] at hj
    · intro hd
      simp only at hd
      have hz := a7 hd
      have : sent p s = p.repos.length := by simp [sent, hd]
      simp only; omega
    · intro i'
      rw [hsent, ← a8 i']
      simp [tookN_snoc, Event.isTook]
    · intro i'
      have := a9 i'
      have := h2 i'
      simp only [tookN_snoc, callN_snoc, Event.isTook, Event.isCall, beq_iff_eq] at *
      split_ifs at * <;> simp at * <;> omega
    · intro i'
      have := a10 i'
      have := h3 i'
      simp only [retN_snoc, callN_snoc, Event.isRet, Event.isCall, beq_iff_eq] at *
      split_ifs at * <;> simp at * <;> omega
    · rw [hsent]; simp only [finished_snoc, Event.isAnyRet]; simp; omega
    · simp only [calls_snoc, finished_snoc, Event.isAnyRet, Event.isAnyCall]; simp; omega
    · simp only [releases_snoc, Event.isRelease]; simp; omega

/-! ### The invariant on the trace -/

theorem get_set_cases {ws : List Worker} {w w' : Nat} {x wk : Worker}
    (h : (ws.set w x)[w']? = some wk) :
    (w' = w ∧ wk = x) ∨ (w' ≠ w ∧ ws[w']? = some wk) := by
  rw [List.getElem?_set] at h
  split_ifs at h with h1 h2
  · left; exact ⟨h1.symm, by simpa using h.symm⟩
  · right; exact ⟨fun hh => h1 hh.symm, h⟩

theorem get_set_self {ws : List Worker} {w : Nat} {old : Worker} (x : Worker)
    (h : ws[w]? = some old) : (ws.set w x)[w]? = some x := by
  rw [List.getElem?_set]
  simp [(List.getElem?_eq_some.1 h).1]

theorem get_set_other {ws : List Worker} {w w' : Nat} (x : Worker) (h : w' ≠ w) :
    (ws.set w x)[w']? = ws[w']? := by
  rw [List.getElem?_set]
  simp [Ne.symm h]

theorem snoc_split {α : Type} {tr pre post : List α} {x ev : α}
    (h : tr ++ [x] = pre ++ ev :: post) :
    (post = [] ∧ tr = pre ∧ x = ev) ∨ (∃ post', post = post' ++ [x] ∧ tr = pre ++ ev :: post') := by
  rcases List.eq_nil_or_concat post with rfl | ⟨post', y, rfl⟩
  · left
    have h' : tr ++ [x] = pre ++ [ev] := h
    have := List.append_inj' h' rfl
    simp at this
    exact ⟨rfl, this.1, this.2⟩
  · right
    rw [List.concat_eq_append] at h ⊢
    have h' : tr ++ [x] = (pre ++ ev :: post') ++ [y] := by simpa using h
    have := List.append_inj' h' rfl
    simp only [List.cons.injEq, and_true] at this
    exact ⟨post', by rw [this.2], this.1⟩

theorem retsBy_snoc (w : Nat) (tr : List Event) (e : Event) :
    retsBy w (tr ++ [e]) = retsBy w tr + if (e.isAnyRet && e.worker == w) then 1 else 0 := by
  simp [retsBy, List.countP_append, List.countP_singleton]

theorem releasedBy_snoc (w : Nat) (tr : List Event) (e : Event) :
    releasedBy w (tr ++ [e]) =
      releasedBy w tr + if (e.isRelease && e.worker == w) then 1 else 0 := by
  simp [releasedBy, List.countP_append, List.countP_singleton]

theorem inv2_init (p : Pool) (c : Int) : Inv2 p (initState p c) := by
  constructor
  · simp [initState]
  · intro w k j e h
    simp only [initState, List.getElem?_replicate] at h
    split_ifs at h <;> simp at h
  · simp [initState]
  · simp [initState]
  · simp [initState]
  · intro pre post ev h
    simp [initState] at h
  · intro w wk h
    simp only [initState, List.getElem?_replicate] at h
    split_ifs at h
    · simp only [Option.some.injEq] at h
      subst h
      simp [initState, retsBy, releasedBy, Worker.busy, Worker.deferred]
  · simp [initState]
  · simp [initState]

/-- How the trace part of the invariant moves when worker `w`, not about to
run `log.Fatal`, goes from `old` to `x` and logs the event `e0`. -/
theorem inv2_worker_step {p : Pool} {s : State} {w : Nat} (old x : Worker) (e0 : Event)
    (h2 : Inv2 p s)
    (hw : s.workers[w]? = some old) (hold : old.failingN = 0) (he0 : e0.worker = w)
    (hx : ∀ (k : Nat) (j : Job) (e : String), x = .failing k j e →
      fatalOf (p.Clone j.idx (cloneURL p.orgName j.repo.Name) j.repo.Name) = some e ∧
      e0 = Event.ret w j.idx (p.Clone j.idx (cloneURL p.orgName j.repo.Name) j.repo.Name))
    (hret : ∀ (w' i : Nat) (err : Option String) (m : String), e0 = .ret w' i err →
      fatalOf err = some m → ∃ (j : Job), x = .failing (old.deferred) j m ∧ j.idx = i)
    (hcall : ∀ (w' i : Nat) (url path : String), e0 = .call w' i url path →
      ∃ r, p.repos[i]? = some r ∧ url = cloneURL p.orgName r.Name ∧ path = r.Name)
    (hretargs : ∀ (w' i : Nat) (err : Option String), e0 = .ret w' i err →
      ∃ r, p.repos[i]? = some r ∧ err = p.Clone i (cloneURL p.orgName r.Name) r.Name)
    (hcount : (if e0.isAnyRet then 1 else 0) + x.busy + old.deferred =
      (if e0.isRelease then 1 else 0) + x.deferred + old.busy)
    (s' : State) (hfs : s'.fatal = none) (hws : s'.workers = s.workers.set w x)
    (htr : s'.trace = s.trace ++ [e0]) (hxs : s'.exited = none) : Inv2 p s' := by
  have hnotfail : ∀ (w' k : Nat) (j : Job) (m : String),
      s.workers[w']? = some (.failing k j m) → w' ≠ w := by
    intro w' k j m hw' heq
    subst heq
    rw [hw] at hw'
    simp only [Option.some.injEq] at hw'
    subst hw'
    simp [Worker.failingN] at hold
  constructor
  · intro e he; rw [hfs] at he; simp at he
  · intro w' k j e hw'
    rw [hws] at hw'
    rw [htr]
    rcases get_set_cases hw' with ⟨rfl, hx'⟩ | ⟨hne, hold'⟩
    · obtain ⟨h1, h2'⟩ := hx k j e hx'.symm
      exact ⟨h1, by simp [h2']⟩
    · obtain ⟨h1, h2'⟩ := h2.failing_ret w' k j e hold'
      exact ⟨h1, by simp [h2']⟩
  · intro w' i err m hmem hfat
    rw [htr] at hmem
    rw [hws]
    rcases List.mem_append.1 hmem with hmem | hmem
    · obtain ⟨k, j, hk, hj⟩ := h2.ret_failing w' i err m hmem hfat
      have hne := hnotfail w' k j m hk
      exact ⟨k, j, by rw [get_set_other x hne]; exact hk, hj⟩
    · simp only [List.mem_singleton] at hmem
      obtain ⟨j, hj, hji⟩ := hret w' i err m hmem.symm hfat
      have : w' = w := by rw [← he0, ← hmem]; rfl
      subst this
      exact ⟨old.deferred, j, by rw [get_set_self x hw, hj], hji⟩
  · intro w' i url path hmem
    rw [htr] at hmem
    rcases List.mem_append.1 hmem with hmem | hmem
    · exact h2.call_args w' i url path hmem
    · simp only [List.mem_singleton] at hmem
      exact hcall w' i url path hmem.symm
  · intro w' i err hmem
    rw [htr] at hmem
    rcases List.mem_append.1 hmem with hmem | hmem
    · exact h2.ret_args w' i err hmem
    · simp only [List.mem_singleton] at hmem
      exact hretargs w' i err hmem.symm
  · intro pre post ev hsplit hev e he
    rw [htr] at hsplit
    rcases snoc_split hsplit with ⟨rfl, _, _⟩ | ⟨post', rfl, htr'⟩
    · simp at he
    · rcases List.mem_append.1 he with he | he
      · exact h2.last_fatal pre post' ev htr' hev e he
      · simp only [List.mem_singleton] at he
        subst he
        rw [he0]
        have hmem : ev ∈ s.trace := by rw [htr']; simp
        cases ev with
        | ret w' i err =>
          simp only [Event.isFatalRet, Option.isSome_iff_exists] at hev
          obtain ⟨m, hm⟩ := hev
          obtain ⟨k, j, hk, _⟩ := h2.ret_failing w' i err m hmem hm
          exact fun hh => hnotfail w' k j m hk hh.symm
        | _ => simp [Event.isFatalRet] at hev
  · intro w' wk hw'
    rw [hws] at hw'
    rw [htr, retsBy_snoc, releasedBy_snoc]
    rcases get_set_cases hw' with ⟨rfl, rfl⟩ | ⟨hne, hold'⟩
    · have := h2.per_worker w' old hw
      simp only [he0, beq_self_eq_true, Bool.and_true]
      omega
    · have := h2.per_worker w' wk hold'
      have hne' : (e0.worker == w') = false := by
        rw [he0]; simpa using Ne.symm hne
      simp only [hne', Bool.and_false]
      simpa using this
  · intro e he
    rw [htr] at he
    rw [hws, List.length_set]
    rcases List.mem_append.1 he with he | he
    · exact h2.in_range e he
    · simp only [List.mem_singleton] at he
      subst he
      rw [he0]
      exact (List.getElem?_eq_some.1 hw).1
  · intro e he; rw [hxs] at he; simp at he

theorem inv2_step {p : Pool} {s s' : State} {a : Action}
    (hs : Inv p s) (h2 : Inv2 p s) (h : Step p s a s') : Inv2 p s' := by
  cases h with
  | @send w i k r hf hm hw hr hx =>
    refine inv2_worker_step (.recv k) (.got k ⟨i, r⟩) (.took w i)
      h2 hw rfl rfl ?_ ?_ ?_ ?_ ?_ _ hf rfl rfl hx
    · intro _ _ _ hx; simp at hx
    · intro _ _ _ _ he; simp at he
    · intro _ _ _ _ he; simp at he
    · intro _ _ _ he; simp at he
    · simp only [Event.isAnyRet, Event.isRelease, Worker.busy, Worker.deferred]; simp; try omega
  | @close hf hm =>
    obtain ⟨b1, b2, b3, b4, b5, b6, b7, b8, b9⟩ := h2
    exact ⟨b1, b2, b3, b4, b5, b6, b7, b8, b9⟩
  | @wait hf hm hz =>
    obtain ⟨b1, b2, b3, b4, b5, b6, b7, b8, b9⟩ := h2
    exact ⟨b1, b2, b3, b4, b5, b6, b7, b8, b9⟩
  | @start w k j hf hw hx =>
    refine inv2_worker_step (.got k j) (.cloning (k + 1) j)
      (.call w j.idx (cloneURL p.orgName j.repo.Name) j.repo.Name)
      h2 hw rfl rfl ?_ ?_ ?_ ?_ ?_ _ hf rfl rfl hx
    · intro _ _ _ hx; simp at hx
    · intro _ _ _ _ he; simp at he
    · intro w' i url path he
      simp only [Event.call.injEq] at he
      obtain ⟨_, rfl, rfl, rfl⟩ := he
      exact ⟨j.repo, hs.job_ok _ (mem_of_get? hw) j rfl, rfl, rfl⟩
    · intro _ _ _ he; simp at he
    · simp only [Event.isAnyRet, Event.isRelease, Worker.busy, Worker.deferred]; simp; try omega
  | @retOk w k j hf hw he hx =>
    refine inv2_worker_step (.cloning k j) (.recv k)
      (.ret w j.idx (p.Clone j.idx (cloneURL p.orgName j.repo.Name) j.repo.Name))
      h2 hw rfl rfl ?_ ?_ ?_ ?_ ?_ _ hf rfl rfl hx
    · intro _ _ _ hx; simp at hx
    · intro w' i err m he' hm
      simp only [Event.ret.injEq] at he'
      obtain ⟨_, _, rfl⟩ := he'
      rw [he] at hm; simp at hm
    · intro _ _ _ _ he; simp at he
    · intro w' i err he'
      simp only [Event.ret.injEq] at he'
      obtain ⟨_, rfl, rfl⟩ := he'
      exact ⟨j.repo, hs.job_ok _ (mem_of_get? hw) j rfl, rfl⟩
    · simp only [Event.isAnyRet, Event.isRelease, Worker.busy, Worker.deferred]; simp; try omega
  | @retFatal w k j e hf hw he hx =>
    refine inv2_worker_step (.cloning k j) (.failing k j e)
      (.ret w j.idx (p.Clone j.idx (cloneURL p.orgName j.repo.Name) j.repo.Name))
      h2 hw rfl rfl ?_ ?_ ?_ ?_ ?_ _ hf rfl rfl hx
    · intro k' j' e' hx
      simp only [Worker.failing.injEq] at hx
      obtain ⟨_, rfl, rfl⟩ := hx
      exact ⟨he, rfl⟩
    · intro w' i err m he' hm
      simp only [Event.ret.injEq] at he'
      obtain ⟨_, rfl, rfl⟩ := he'
      rw [he] at hm
      simp only [Option.some.injEq] at hm
      subst hm
      exact ⟨j, rfl, rfl⟩
    · intro _ _ _ _ he; simp at he
    · intro w' i err he'
      simp only [Event.ret.injEq] at he'
      obtain ⟨_, rfl, rfl⟩ := he'
      exact ⟨j.repo, hs.job_ok _ (mem_of_get? hw) j rfl, rfl⟩
    · simp only [Event.isAnyRet, Event.isRelease, Worker.busy, Worker.deferred]; simp; try omega
  | @fatal w k j e hf hw =>
    obtain ⟨b1, b2, b3, b4, b5, b6, b7, b8, b9⟩ := h2
    refine ⟨?_, b2, b3, b4, b5, b6, b7, b8, b9⟩
    intro e' he'
    simp only [Option.some.injEq] at he'
    subst he'
    exact ⟨w, k, j, hw⟩
  | @abort w k j e hf hw hce hx =>
    obtain ⟨b1, b2, b3, b4, b5, b6, b7, b8, b9⟩ := h2
    refine ⟨b1, b2, b3, b4, b5, b6, b7, b8, ?_⟩
    intro e' he'
    simp only [Option.some.injEq] at he'
    subst he'
    exact ⟨w, k, j, hw, hce⟩
  | @leave w k hf hw hc hx =>
    have hnotfail : ∀ (w' k' : Nat) (j : Job) (m : String),
        s.workers[w']? = some (.failing k' j m) → w' ≠ w := by
      intro w' k' j m hw' heq
      subst heq
      rw [hw] at hw'
      simp at hw'
    constructor
    · intro e he; simp only at he; rw [hf] at he; simp at he
    · intro w' k' j e hw'
      rcases get_set_cases hw' with ⟨_, hx⟩ | ⟨_, hold⟩
      · simp at hx
      · exact h2.failing_ret w' k' j e hold
    · intro w' i err m hmem hfat
      obtain ⟨k', j, hk, hj⟩ := h2.ret_failing w' i err m hmem hfat
      exact ⟨k', j, by simp only; rw [get_set_other _ (hnotfail w' k' j m hk)]; exact hk, hj⟩
    · exact h2.call_args
    · exact h2.ret_args
    · exact h2.last_fatal
    · intro w' wk hw'
      rcases get_set_cases hw' with ⟨rfl, rfl⟩ | ⟨_, hold⟩
      · have := h2.per_worker w' _ hw
        simpa [Worker.busy, Worker.deferred] using this
      · exact h2.per_worker w' wk hold
    · intro e he
      simp only [List.length_set]
      exact h2.in_range e he
    · intro e he; simp only at he; rw [hx] at he; simp at he
  | @done w k hf hw hx =>
    refine inv2_worker_step (.unwind (k + 1)) (.unwind k) (.release w)
      h2 hw rfl rfl ?_ ?_ ?_ ?_ ?_ _ hf rfl rfl hx
    · intro _ _ _ hx; simp at hx
    · intro _ _ _ _ he; simp at he
    · intro _ _ _ _ he; simp at he
    · intro _ _ _ he; simp at he
    · simp only [Event.isAnyRet, Event.isRelease, Worker.busy, Worker.deferred]; simp; try omega

/-! ### Schedules -/

theorem exec_append (p : Pool) (as bs : List Action) (s : State) :
    exec p (as ++ bs) s = (exec p as s).bind (exec p bs) := by
  induction as generalizing s with
  | nil => simp [exec]
  | cons a t ih =>
    simp only [List.cons_append, exec]
    cases step p s a with
    | none => simp
    | some s' => simpa using ih s'

/-- An invariant kept by every step holds along every schedule. -/
theorem exec_induct {p : Pool} (P : State → Prop)
    (hstep : ∀ s s' a, P s → Step p s a s' → P s')
    {sched : List Action} {s s' : State} (h : exec p sched s = some s') (hs : P s) : P s' := by
  induction sched generalizing s with
  | nil =>
    simp only [exec, Option.some.injEq] at h
    exact h ▸ hs
  | cons a t ih =>
    simp only [exec] at h
    cases hst : step p s a with
    | none => simp [hst] at h
    | some s1 =>
      rw [hst] at h
      exact ih h (hstep s s1 a hs (step_sound hst))

theorem inv_exec {p : Pool} {sched : List Action} {s s' : State}
    (h : exec p sched s = some s') (hs : Inv p s ∧ Inv2 p s) : Inv p s' ∧ Inv2 p s' :=
  exec_induct (fun s => Inv p s ∧ Inv2 p s)
    (fun _ _ _ hh hst => ⟨inv_step hh.1 hst, inv2_step hh.1 hh.2 hst⟩) h hs

theorem inv_reach {p : Pool} {c : Int} {sched : List Action} {s : State}
    (h : exec p sched (initState p c) = some s) : Inv p s ∧ Inv2 p s :=
  inv_exec h ⟨inv_init p c, inv2_init p c⟩

theorem length_step {p : Pool} {s s' : State} {a : Action} (h : Step p s a s') :
    s'.workers.length = s.workers.length := by
  cases h <;> simp

theorem length_reach {p : Pool} {c : Int} {sched : List Action} {s : State}
    (h : exec p sched (initState p c) = some s) : s.workers.length = c.toNat := by
  have := exec_induct (p := p) (fun s => s.workers.length = c.toNat)
    (fun _ _ _ hh hst => (length_step hst).trans hh) h (by simp [initState])
  exact this

/-! ### Termination and absence of deadlock -/

theorem fuel_step {p : Pool} {s s' : State} {a : Action}
    (h : Step p s a s') : fuel p s' + 1 = fuel p s := by
  cases h with
  | @send w i k r hf hm hw hr hx =>
    have hlt : i < p.repos.length := (List.getElem?_eq_some.1 hr).1
    have h1 := wsum_set (f := Worker.fuel) (.got k ⟨i, r⟩) hw
    simp only [Worker.fuel] at h1
    simp only [fuel, sent, hm, hf, hx, Main.fuel]
    simp; omega
  | @close hf hm hx =>
    simp only [fuel, sent, hm, hf, hx, Main.fuel]
    simp
  | @wait hf hm hz hx =>
    simp only [fuel, sent, hm, hf, hx, Main.fuel]
    simp
  | @start w k j hf hw hx =>
    have h1 := wsum_set (f := Worker.fuel) (.cloning (k + 1) j) hw
    simp only [Worker.fuel] at h1
    simp only [fuel, sent, hf, hx]
    simp; omega
  | @retOk w k j hf hw he hx =>
    have h1 := wsum_set (f := Worker.fuel) (.recv k) hw
    simp only [Worker.fuel] at h1
    simp only [fuel, sent, hf, hx]
    simp; omega
  | @retFatal w k j e hf hw he hx =>
    have h1 := wsum_set (f := Worker.fuel) (.failing k j e) hw
    simp only [Worker.fuel] at h1
    simp only [fuel, sent, hf, hx]
    simp; omega
  | @fatal w k j e hf hw hx =>
    simp only [fuel, sent, hf, hx]
    simp
  | @abort w k j e hf hw hce hx =>
    simp only [fuel, sent, hf, hx]
    simp
  | @leave w k hf hw hc hx =>
    have h1 := wsum_set (f := Worker.fuel) (.unwind k) hw
    simp only [Worker.fuel] at h1
    simp only [fuel, sent, hf, hx]
    simp; omega
  | @done w k hf hw hx =>
    have h1 := wsum_set (f := Worker.fuel) (.unwind k) hw
    simp only [Worker.fuel] at h1
    simp only [fuel, sent, hf, hx]
    simp; omega

/-- Every schedule uses up the bound, one unit for each action. -/
theorem fuel_exec {p : Pool} {sched : List Action} {s s' : State}
    (hs : Inv p s ∧ Inv2 p s) (h : exec p sched s = some s') :
    fuel p s' + sched.length = fuel p s := by
  induction sched generalizing s with
  | nil =>
    simp only [exec, Option.some.injEq] at h
    subst h; simp
  | cons a t ih =>
    simp only [exec] at h
    cases hst : step p s a with
    | none => simp [hst] at h
    | some s1 =>
      rw [hst] at h
      have hst' := step_sound hst
      have h1 := fuel_step hst'
      have h2 := ih ⟨inv_step hs.1 hst', inv2_step hs.1 hs.2 hst'⟩ h
      simp only [List.length_cons]
      omega

/-- No deadlock with at least one worker: as long as the process has not
stopped some action is enabled. -/
theorem progress {p : Pool} {s : State} (hs : Inv p s) (hw : 1 ≤ s.workers.length)
    (hend : s.stopped = false) : ∃ (a : Action) (s' : State), step p s a = some s' := by
  simp only [State.stopped, State.ended, Bool.or_eq_false_iff, beq_eq_false_iff_ne,
    ne_eq] at hend
  obtain ⟨⟨hnd, hf⟩, hx⟩ := hend
  have hf : s.fatal = none := by
    cases h : s.fatal with
    | none => rfl
    | some e => simp [h] at hf
  have hx : s.exited = none := by
    cases h : s.exited with
    | none => rfl
    | some e => simp [h] at hx
  have act : ∀ (w : Nat) (wk : Worker), s.workers[w]? = some wk →
      (∀ k, wk ≠ .recv k) → (∀ k, wk = .unwind k → 0 < k) →
      ∃ (a : Action) (s' : State), step p s a = some s' := by
    intro w wk hwk hrecv hunw
    cases wk with
    | recv k => exact absurd rfl (hrecv k)
    | got k j => exact ⟨.start w, _, step_complete (Step.start hf hwk hx)⟩
    | cloning k j =>
      cases hce : cloneExit p j.idx j.repo.Name with
      | some e => exact ⟨.abort w, _, step_complete (Step.abort hf hwk hce hx)⟩
      | none =>
        cases he : fatalOf (p.Clone j.idx (cloneURL p.orgName j.repo.Name) j.repo.Name) with
        | none => exact ⟨.ret w, _, step_complete (Step.retOk hf hwk he hx hce)⟩
        | some e => exact ⟨.ret w, _, step_complete (Step.retFatal hf hwk he hx hce)⟩
    | failing k j e => exact ⟨.fatal w, _, step_complete (Step.fatal hf hwk hx)⟩
    | unwind k =>
      have := hunw k rfl
      obtain ⟨k', rfl⟩ : ∃ k', k = k' + 1 := ⟨k - 1, by omega⟩
      exact ⟨.done w, _, step_complete (Step.done hf hwk hx)⟩
  cases hm : s.main with
  | send i =>
    by_cases hi : i = p.repos.length
    · subst hi
      exact ⟨.close, _, step_complete (Step.close hf hm hx)⟩
    · have hle := hs.sent_le
      simp only [sent, hm] at hle
      have hlt : i < p.repos.length := by omega
      have hr : p.repos[i]? = some (p.repos[i]) := List.getElem?_eq_getElem hlt
      have h0 : s.workers[0]? = some (s.workers[0]) := List.getElem?_eq_getElem (by omega)
      by_cases hk : ∃ k, s.workers[0] = .recv k
      · obtain ⟨k, hk⟩ := hk
        rw [hk] at h0
        exact ⟨.send 0, _, step_complete (Step.send hf hm h0 hr hx)⟩
      · refine act 0 _ h0 (fun k hh => hk ⟨k, hh⟩) ?_
        intro k hh
        rw [hh] at h0
        have hc := hs.unwind_closed k (mem_of_get? h0)
        have := hs.closed_iff.1 hc i
        exact absurd hm this
  | wait =>
    by_cases hz : s.wg = 0
    · exact ⟨.wait, _, step_complete (Step.wait hf hm hz hx)⟩
    · have hwg := hs.wg_eq
      simp only [sent, hm] at hwg
      have hpos : 0 < wsum Worker.owed s.workers := by omega
      obtain ⟨w, wk, hwk, hk⟩ := wsum_pos hpos
      have hc : s.closed = true := hs.closed_iff.2 (by simp [hm])
      by_cases hr : ∃ k, wk = .recv k
      · obtain ⟨k, rfl⟩ := hr
        exact ⟨.leave w, _, step_complete (Step.leave hf hwk hc hx)⟩
      · refine act w wk hwk (fun k hh => hr ⟨k, hh⟩) ?_
        intro k hh
        subst hh
        simpa [Worker.owed, Worker.deferred] using hk
  | done => exact absurd hm hnd

/-- Every state the invariant holds in can be driven until the process
stops. -/
theorem can_end {p : Pool} (n : Nat) :
    ∀ s : State, fuel p s ≤ n → Inv p s → Inv2 p s → 1 ≤ s.workers.length →
    ∃ (more : List Action) (s' : State), exec p more s = some s' ∧ s'.stopped = true := by
  induction n with
  | zero =>
    intro s hn hs _ hw
    by_cases hend : s.stopped = true
    · exact ⟨[], s, rfl, hend⟩
    · obtain ⟨a, s1, hst⟩ := progress hs hw (by simpa using hend)
      have := fuel_step (step_sound hst)
      omega
  | succ n ih =>
    intro s hn hs h2 hw
    by_cases hend : s.stopped = true
    · exact ⟨[], s, rfl, hend⟩
    · obtain ⟨a, s1, hst⟩ := progress hs hw (by simpa using hend)
      have hst' := step_sound hst
      have := fuel_step hst'
      obtain ⟨more, s', hex, he⟩ := ih s1 (by omega) (inv_step hs hst') (inv2_step hs h2 hst')
        (by rw [length_step hst']; exact hw)
      exact ⟨a :: more, s', by simp [exec, hst, hex], he⟩

/-- With at least one worker every reachable state can be driven until the
process stops. -/
theorem reach_can_stop {p : Pool} {c : Int} (hc : 1 ≤ c) {sched : List Action} {s : State}
    (h : exec p sched (initState p c) = some s) :
    ∃ (more : List Action) (s' : State), exec p more s = some s' ∧ s'.stopped = true := by
  obtain ⟨hs, h2⟩ := inv_reach h
  refine can_end (fuel p s) s le_rfl hs h2 ?_
  rw [length_reach h]; omega

/-- With at least one worker a reachable state in which no action is enabled
is one where the process has stopped: the pool cannot block. -/
theorem stuck_stopped {p : Pool} {c : Int} (hc : 1 ≤ c) {sched : List Action} {s : State}
    (h : exec p sched (initState p c) = some s) (hstuck : ∀ a, step p s a = none) :
    s.stopped = true := by
  by_contra hne
  obtain ⟨hs, _⟩ := inv_reach h
  obtain ⟨a, s1, hst⟩ := progress hs (by rw [length_reach h]; omega) (by simpa using hne)
  rw [hstuck a] at hst
  simp at hst

/-- When every clone call returns the credentials closure has not ended the
process. -/
theorem noexit_state {p : Pool} {s : State} (hp : NoExit p) (hs : Inv p s) (h2 : Inv2 p s) :
    s.exited = none := by
  cases hx : s.exited with
  | none => rfl
  | some e =>
    obtain ⟨w, k, j, hw, hce⟩ := h2.exit_cause e hx
    have hj := hs.job_ok _ (mem_of_get? hw) j rfl
    rw [hp j.idx j.repo hj] at hce
    simp at hce

/-- When every clone call returns, a process that has stopped has ended by the
return of `run` or by `log.Fatal`. -/
theorem ended_of_stopped {p : Pool} {s : State} (hp : NoExit p) (hs : Inv p s)
    (h2 : Inv2 p s) (h : s.stopped = true) : s.ended = true := by
  have hx := noexit_state hp hs h2
  simpa [State.stopped, hx] using h

/-- With at least one worker and returning clone calls every reachable state
can be driven to the end of the process. -/
theorem reach_can_end {p : Pool} {c : Int} (hc : 1 ≤ c) (hp : NoExit p)
    {sched : List Action} {s : State} (h : exec p sched (initState p c) = some s) :
    ∃ (more : List Action) (s' : State), exec p more s = some s' ∧ s'.ended = true := by
  obtain ⟨more, s', hex, hstop⟩ := reach_can_stop hc h
  have hreach : exec p (sched ++ more) (initState p c) = some s' := by
    rw [exec_append, h]; exact hex
  obtain ⟨hs', h2'⟩ := inv_reach hreach
  exact ⟨more, s', hex, ended_of_stopped hp hs' h2' hstop⟩

/-- With at least one worker and returning clone calls a reachable state in
which no action is enabled is an ended one. -/
theorem stuck_ended {p : Pool} {c : Int} (hc : 1 ≤ c) (hp : NoExit p)
    {sched : List Action} {s : State} (h : exec p sched (initState p c) = some s)
    (hstuck : ∀ a, step p s a = none) : s.ended = true := by
  obtain ⟨hs, h2⟩ := inv_reach h
  exact ended_of_stopped hp hs h2 (stuck_stopped hc h hstuck)

/-! ### Consequences of the invariants -/

theorem wsum_mono {f g : Worker → Nat} {ws : List Worker}
    (h : ∀ wk ∈ ws, f wk ≤ g wk) : wsum f ws ≤ wsum g ws := by
  induction ws with
  | nil => simp [wsum]
  | cons a t ih =>
    have h1 := h a (by simp)
    have h2 := ih (fun wk hwk => h wk (by simp [hwk]))
    simp only [wsum, List.map_cons, List.sum_cons] at h2 ⊢
    omega

/-- The counter of the wait group is never negative. -/
theorem wg_nonneg {p : Pool} {s : State} (hs : Inv p s) : 0 ≤ s.wg := by
  have := hs.wg_eq
  have := hs.sent_le
  omega

/-- When the counter is zero every job has been handed over and no worker
holds a job or a deferred release. -/
theorem idle_of_wg_zero {p : Pool} {s : State} (hs : Inv p s) (hz : s.wg = 0) :
    sent p s = p.repos.length ∧ wsum Worker.owed s.workers = 0 ∧
    wsum Worker.inflight s.workers = 0 ∧ wsum Worker.busy s.workers = 0 ∧
    wsum Worker.failingN s.workers = 0 ∧
    (∀ i, wsum (Worker.gotN i) s.workers = 0) ∧
    (∀ i, wsum (Worker.cloningN i) s.workers = 0) := by
  have h1 := hs.wg_eq
  have h2 := hs.sent_le
  have h0 : wsum Worker.owed s.workers = 0 := by omega
  have hle : ∀ (f : Worker → Nat), (∀ wk ∈ s.workers, f wk ≤ wk.owed) →
      wsum f s.workers = 0 := by
    intro f hf
    have := wsum_mono hf
    omega
  refine ⟨by omega, h0, hle _ ?_, hle _ ?_, hle _ ?_, fun i => hle _ ?_, fun i => hle _ ?_⟩
  all_goals
    intro wk hwk
    have := hs.deferred_pos wk hwk
    cases wk <;>
      simp only [Worker.inflight, Worker.busy, Worker.failingN, Worker.gotN, Worker.cloningN,
        Worker.owed, Worker.deferred] at * <;>
      (try split_ifs) <;> omega

/-- When the counter is zero each job of the list has been received once,
cloned once, and its clone call has returned. -/
theorem counts_of_wg_zero {p : Pool} {s : State} (hs : Inv p s) (hz : s.wg = 0) :
    (∀ i, tookN i s.trace = if i < p.repos.length then 1 else 0) ∧
    (∀ i, callN i s.trace = if i < p.repos.length then 1 else 0) ∧
    (∀ i, retN i s.trace = if i < p.repos.length then 1 else 0) ∧
    calls s.trace = p.repos.length ∧ finished s.trace = p.repos.length := by
  obtain ⟨h1, _, h3, h4, _, h6, h7⟩ := idle_of_wg_zero hs hz
  have ht := hs.took_eq
  rw [h1] at ht
  have hc : ∀ i, callN i s.trace = if i < p.repos.length then 1 else 0 := by
    intro i
    have := hs.call_eq i
    rw [h6 i, ht i] at this
    simpa using this
  have hr : ∀ i, retN i s.trace = if i < p.repos.length then 1 else 0 := by
    intro i
    have := hs.ret_eq i
    rw [h7 i, hc i] at this
    simpa using this.symm
  have hf := hs.flow
  have hcs := hs.calls_eq
  exact ⟨ht, hc, hr, by omega, by omega⟩

/-- In every state a job has been received at most once and cloned at most
once, and `git.Clone` has returned at most once for it. -/
theorem counts_le_one {p : Pool} {s : State} (hs : Inv p s) (i : Nat) :
    tookN i s.trace ≤ 1 ∧ callN i s.trace ≤ 1 ∧ retN i s.trace ≤ 1 ∧
    (p.repos.length ≤ i → tookN i s.trace = 0) := by
  have h1 := hs.took_eq i
  have h2 := hs.call_eq i
  have h3 := hs.ret_eq i
  have h4 := hs.sent_le
  split_ifs at h1 <;> refine ⟨by omega, by omega, by omega, ?_⟩ <;> intro _ <;> omega

theorem count_calledJobs (i : Nat) (tr : List Event) :
    (calledJobs tr).count i = callN i tr := by
  induction tr with
  | nil => simp [calledJobs, callN]
  | cons e t ih =>
    cases e <;>
      simp only [calledJobs, callN, List.countP_cons, Event.isCall, List.count_cons] at ih ⊢ <;>
      simp [ih]

theorem calledJobs_perm {p : Pool} {s : State}
    (hc : ∀ i, callN i s.trace = if i < p.repos.length then 1 else 0) :
    (calledJobs s.trace).Perm (List.range p.repos.length) := by
  rw [List.perm_iff_count]
  intro i
  rw [count_calledJobs, hc i, List.count_eq_of_nodup (List.nodup_range _)]
  simp

/-- Without fatal clone errors no worker reaches `log.Fatal`. -/
theorem nofatal_state {p : Pool} {s : State} (hp : NoFatal p) (hs : Inv p s) (h2 : Inv2 p s) :
    s.fatal = none ∧
    ∀ (w k : Nat) (j : Job) (e : String), s.workers[w]? ≠ some (.failing k j e) := by
  have hno : ∀ (w k : Nat) (j : Job) (e : String), s.workers[w]? ≠ some (.failing k j e) := by
    intro w k j e hw
    have h1 := (h2.failing_ret w k j e hw).1
    have h3 := hs.job_ok _ (mem_of_get? hw) j rfl
    rw [hp j.idx j.repo h3] at h1
    simp at h1
  refine ⟨?_, hno⟩
  cases hf : s.fatal with
  | none => rfl
  | some e =>
    obtain ⟨w, k, j, hw⟩ := h2.fatal_failing e hf
    exact absurd hw (hno w k j e)

theorem fuel_init (p : Pool) (c : Int) :
    fuel p (initState p c) = 4 * p.repos.length + c.toNat + 3 := by
  simp [fuel, initState, sent, wsum_replicate, Worker.fuel, Main.fuel]

/-- Every schedule from the initial state has at most `4 * N + W + 3` actions. -/
theorem sched_bound {p : Pool} {c : Int} {sched : List Action} {s : State}
    (h : exec p sched (initState p c) = some s) :
    sched.length ≤ 4 * p.repos.length + c.toNat + 3 := by
  have := fuel_exec ⟨inv_init p c, inv2_init p c⟩ h
  rw [fuel_init] at this
  omega

theorem unique_of_countP_le_one {α : Type} (q : α → Bool) :
    ∀ (l : List α), l.countP q ≤ 1 → ∀ (a b : α), a ∈ l → b ∈ l → q a = true → q b = true →
      a = b := by
  intro l
  induction l with
  | nil => intro _ a b ha; simp at ha
  | cons x t ih =>
    intro h a b ha hb qa qb
    rw [List.countP_cons] at h
    rcases List.mem_cons.1 ha with hax | hat
    · rcases List.mem_cons.1 hb with hbx | hbt
      · rw [hax, hbx]
      · rw [hax] at qa
        simp only [qa, if_true] at h
        have h0 : t.countP q = 0 := by omega
        exact absurd qb (List.countP_eq_zero.1 h0 b hbt)
    · rcases List.mem_cons.1 hb with hbx | hbt
      · rw [hbx] at qb
        simp only [qb, if_true] at h
        have h0 : t.countP q = 0 := by omega
        exact absurd qa (List.countP_eq_zero.1 h0 a hat)
      · exact ih (by omega) a b hat hbt qa qb

theorem nofatal_of_forall {p : Pool}
    (h : ∀ (i : Nat) (url path : String), fatalOf (p.Clone i url path) = none) : NoFatal p :=
  fun i _ _ => h i _ _

/-- With at least one worker, no fatal clone error and returning clone calls
every reachable state can be driven to the normal return of `run`. -/
theorem reach_can_complete {p : Pool} {c : Int} (hc : 1 ≤ c) (hp : NoFatal p)
    (hq : NoExit p)
    {sched : List Action} {s : State} (h : exec p sched (initState p c) = some s) :
    ∃ (more : List Action) (s' : State),
      exec p more s = some s' ∧ s'.main = .done ∧ s'.fatal = none := by
  obtain ⟨more, s', hex, hend⟩ := reach_can_end hc hq h
  have hreach : exec p (sched ++ more) (initState p c) = some s' := by
    rw [exec_append, h]; exact hex
  obtain ⟨hs', h2'⟩ := inv_reach hreach
  have hf := (nofatal_state hp hs' h2').1
  refine ⟨more, s', hex, ?_, hf⟩
  simpa [State.ended, hf] using hend

/-- With at least one worker, no fatal clone error and returning clone calls
the pool can only come to rest at the normal return of `run`. -/
theorem stuck_done {p : Pool} {c : Int} (hc : 1 ≤ c) (hp : NoFatal p) (hq : NoExit p)
    {sched : List Action} {s : State} (h : exec p sched (initState p c) = some s)
    (hstuck : ∀ a, step p s a = none) : s.main = .done := by
  have hend := stuck_ended hc hq h hstuck
  obtain ⟨hs, h2⟩ := inv_reach h
  have hf := (nofatal_state hp hs h2).1
  simpa [State.ended, hf] using hend

/-! ## The claims -/

/-- C1 (exactly-once dispatch).  For every job list, every worker count
`W ≥ 1` and every clone function that never returns a fatal error, in every
state reachable by an interleaving: no job has been received twice (so no two
workers receive the same job) or cloned twice, each call of `git.Clone` is made
with the URL and the name of the job at its position, and no `log.Fatal` has
happened.  Once `run` has returned, `git.Clone` has been invoked exactly once
for each position of the job list and never for anything else, exactly
`len(repos)` times in all.  When every clone call returns (the credentials
closure does not call `os.Exit(1)` during it), every interleaving can be
continued to the return of `run` and an interleaving at whose end no action is
enabled has reached that return; in any case every interleaving can be
continued until the process stops, comes to rest only there, and has at most
`4 * len(repos) + W + 3` actions. -/
theorem exactly_once_dispatch (p : Pool) (W : Int) (hW : 1 ≤ W)
    (hclone : ∀ (i : Nat) (url path : String), fatalOf (p.Clone i url path) = none)
    (sched : List Action) (s : State) (h : exec p sched (initState p W) = some s) :
    (s.main = .done →
      (∀ i, i < p.repos.length → callN i s.trace = 1 ∧ tookN i s.trace = 1) ∧
      (∀ i, p.repos.length ≤ i → callN i s.trace = 0) ∧
      calls s.trace = p.repos.length ∧
      (calledJobs s.trace).Perm (List.range p.repos.length)) ∧
    (∀ i, callN i s.trace ≤ 1 ∧ tookN i s.trace ≤ 1) ∧
    (∀ (w w' i : Nat), Event.took w i ∈ s.trace → Event.took w' i ∈ s.trace → w = w') ∧
    (∀ (w i : Nat) (url path : String), Event.call w i url path ∈ s.trace →
      ∃ r, p.repos[i]? = some r ∧ url = cloneURL p.orgName r.Name ∧ path = r.Name) ∧
    s.fatal = none ∧
    (NoExit p →
      ∃ (more : List Action) (s' : State), exec p more s = some s' ∧ s'.main = .done) ∧
    (NoExit p → (∀ a, step p s a = none) → s.main = .done) ∧
    (∃ (more : List Action) (s' : State), exec p more s = some s' ∧ s'.stopped = true) ∧
    ((∀ a, step p s a = none) → s.stopped = true) ∧
    sched.length ≤ 4 * p.repos.length + W.toNat + 3 := by
  obtain ⟨hs, h2⟩ := inv_reach h
  have hp := nofatal_of_forall hclone
  refine ⟨?_, ?_, ?_, h2.call_args, (nofatal_state hp hs h2).1, ?_,
    fun hq => stuck_done hW hp hq h, reach_can_stop hW h, stuck_stopped hW h, sched_bound h⟩
  · intro hd
    obtain ⟨ht, hc, _, hcs, _⟩ := counts_of_wg_zero hs (hs.done_wg hd)
    refine ⟨?_, ?_, hcs, calledJobs_perm hc⟩
    · intro i hi
      have h1 := hc i
      have h3 := ht i
      simp only [hi, if_true] at h1 h3
      exact ⟨h1, h3⟩
    · intro i hi
      have h1 := hc i
      have : ¬ i < p.repos.length := by omega
      simpa [this] using h1
  · intro i
    have := counts_le_one hs i
    exact ⟨this.2.1, this.1⟩
  · intro w w' i hw hw'
    have hle := (counts_le_one hs i).1
    have := unique_of_countP_le_one (Event.isTook i) s.trace hle _ _ hw hw'
      (by simp [Event.isTook]) (by simp [Event.isTook])
    simpa using this
  · intro hq
    obtain ⟨more, s', hex, hd, _⟩ := reach_can_complete hW hp hq h
    exact ⟨more, s', hex, hd⟩

/-- Witness of C1: three jobs, two workers, every clone succeeds; the run
`demoSched` ends with three invocations. -/
theorem exactly_once_dispatch_witness :
    (1 : Int) ≤ 2 ∧
    (∀ (i : Nat) (url path : String), fatalOf (demoPool.Clone i url path) = none) ∧
    exec demoPool demoSched (initState demoPool 2) = some demoFinal ∧
    demoFinal.main = .done ∧
    calls demoFinal.trace = demoPool.repos.length ∧
    (calledJobs demoFinal.trace).Perm (List.range demoPool.repos.length) :=
  ⟨by decide, fun _ _ _ => rfl, by decide, rfl,
    ((exactly_once_dispatch demoPool 2 (by decide) (fun _ _ _ => rfl) demoSched demoFinal
      (by decide)).1 rfl).2.2.1,
    ((exactly_once_dispatch demoPool 2 (by decide) (fun _ _ _ => rfl) demoSched demoFinal
      (by decide)).1 rfl).2.2.2⟩

/-- C2 (completion barrier).  For every job list, every worker count (in
particular every `W ≥ 1`) and every interleaving: in every reachable state
where the counter of the wait group is 0, the dispatching loop has handed over
all jobs, each job of the list has been received once and cloned once and its
clone call has returned, and no worker holds a job.  `wg.Wait` returns only
when the counter is 0, so in every state where `run` has returned the same
holds. -/
theorem completion_barrier (p : Pool) (W : Int) (sched : List Action) (s : State)
    (h : exec p sched (initState p W) = some s) :
    (s.wg = 0 →
      sent p s = p.repos.length ∧
      (∀ i, i < p.repos.length →
        tookN i s.trace = 1 ∧ callN i s.trace = 1 ∧ retN i s.trace = 1) ∧
      finished s.trace = p.repos.length ∧
      (∀ wk ∈ s.workers, wk.job = none)) ∧
    (∀ s', step p s .wait = some s' → s.wg = 0) ∧
    (s.main = .done → s.wg = 0) := by
  obtain ⟨hs, h2⟩ := inv_reach h
  refine ⟨?_, ?_, hs.done_wg⟩
  · intro hz
    obtain ⟨ht, hc, hr, _, hfin⟩ := counts_of_wg_zero hs hz
    obtain ⟨h1, h0, _⟩ := idle_of_wg_zero hs hz
    refine ⟨h1, ?_, hfin, ?_⟩
    · intro i hi
      have a := ht i
      have b := hc i
      have c := hr i
      simp only [hi, if_true] at a b c
      exact ⟨a, b, c⟩
    · intro wk hwk
      have ho := wsum_eq_zero h0 wk hwk
      have hd := hs.deferred_pos wk hwk
      cases wk <;>
        simp only [Worker.owed, Worker.deferred, Worker.busy, Worker.failingN, Worker.job] at * <;>
        omega
  · intro s' hst
    cases step_sound hst with
    | wait _ _ hz => exact hz

/-- Witness of C2: at the end of `demoSched` the counter is 0 and all three
clone calls have returned. -/
theorem completion_barrier_witness :
    exec demoPool demoSched (initState demoPool 2) = some demoFinal ∧ demoFinal.wg = 0 ∧
    finished demoFinal.trace = demoPool.repos.length :=
  ⟨by decide, rfl,
    ((completion_barrier demoPool 2 demoSched demoFinal (by decide)).1 rfl).2.2.1⟩

theorem countP_by_zero {tr : List Event} {n w : Nat} (q : Event → Bool)
    (hr : ∀ e ∈ tr, e.worker < n) (hw : n ≤ w) :
    tr.countP (fun e => q e && e.worker == w) = 0 := by
  rw [List.countP_eq_zero]
  intro e he
  have := hr e he
  have hne : e.worker ≠ w := by omega
  simp [hne]

/-- C7 (barrier accounting).  The counter is set to `len(repos)` before any job
is sent.  For every `W ≥ 1`, every clone function without fatal errors and
every interleaving, in every reachable state: the counter is not negative; the
counter plus the number of executed `wg.Done()` is `len(repos)`; for each
worker the clone calls that have returned in it (with success or with the
skipped error) plus the one it is inside equal the `wg.Done()` it has run plus
those it has deferred.  Once `run` has returned each worker has run exactly
one `wg.Done()` for each clone call that returned in it, `len(repos)` in all,
and the counter is 0.  When every clone call returns, every interleaving can
be continued to that return and can come to rest only there; in any case it
can be continued until the process stops and comes to rest only there. -/
theorem barrier_accounting (p : Pool) (W : Int) (hW : 1 ≤ W) (hp : NoFatal p)
    (sched : List Action) (s : State) (h : exec p sched (initState p W) = some s) :
    ((initState p W).wg = p.repos.length ∧ (initState p W).main = .send 0 ∧
      (initState p W).trace = []) ∧
    0 ≤ s.wg ∧
    s.wg + (releases s.trace : Int) = p.repos.length ∧
    (∀ (w : Nat) (wk : Worker), s.workers[w]? = some wk →
      retsBy w s.trace + wk.busy = releasedBy w s.trace + wk.deferred) ∧
    (s.main = .done →
      s.wg = 0 ∧ releases s.trace = p.repos.length ∧
      finished s.trace = p.repos.length ∧
      ∀ w, releasedBy w s.trace = retsBy w s.trace) ∧
    s.fatal = none ∧
    (NoExit p →
      ∃ (more : List Action) (s' : State),
        exec p more s = some s' ∧ s'.main = .done ∧ s'.fatal = none) ∧
    (NoExit p → (∀ a, step p s a = none) → s.main = .done) ∧
    (∃ (more : List Action) (s' : State), exec p more s = some s' ∧ s'.stopped = true) ∧
    ((∀ a, step p s a = none) → s.stopped = true) := by
  obtain ⟨hs, h2⟩ := inv_reach h
  refine ⟨⟨rfl, rfl, rfl⟩, wg_nonneg hs, hs.released, h2.per_worker, ?_,
    (nofatal_state hp hs h2).1, fun hq => reach_can_complete hW hp hq h,
    fun hq => stuck_done hW hp hq h, reach_can_stop hW h, stuck_stopped hW h⟩
  intro hd
  have hz := hs.done_wg hd
  have hrel := hs.released
  obtain ⟨_, _, _, _, hfin⟩ := counts_of_wg_zero hs hz
  obtain ⟨_, h0, _⟩ := idle_of_wg_zero hs hz
  refine ⟨hz, by omega, hfin, ?_⟩
  intro w
  by_cases hw : w < s.workers.length
  · have hget : s.workers[w]? = some (s.workers[w]) := List.getElem?_eq_getElem hw
    have hpw := h2.per_worker w _ hget
    have ho := wsum_eq_zero h0 _ (mem_of_get? hget)
    have hd' := hs.deferred_pos _ (mem_of_get? hget)
    revert hpw ho hd'
    cases s.workers[w] <;>
      simp only [Worker.owed, Worker.deferred, Worker.busy, Worker.failingN] <;>
      omega
  · have hle : s.workers.length ≤ w := by omega
    have a := countP_by_zero (w := w) Event.isAnyRet h2.in_range hle
    have b := countP_by_zero (w := w) Event.isRelease h2.in_range hle
    simp only [retsBy, releasedBy, a, b]

/-- Witness of C7: at the end of `demoSched` worker 0 has released one credit
for its one job, worker 1 two for its two. -/
theorem barrier_accounting_witness :
    (1 : Int) ≤ 2 ∧ NoFatal demoPool ∧
    exec demoPool demoSched (initState demoPool 2) = some demoFinal ∧
    releases demoFinal.trace = 3 ∧ demoFinal.wg = 0 ∧
    releasedBy 0 demoFinal.trace = 1 ∧ releasedBy 1 demoFinal.trace = 2 ∧
    (∀ w, releasedBy w demoFinal.trace = retsBy w demoFinal.trace) :=
  ⟨by decide, fun _ _ _ => rfl, by decide, by decide, rfl, by decide, by decide,
    ((barrier_accounting demoPool 2 (by decide) (fun _ _ _ => rfl) demoSched demoFinal
      (by decide)).2.2.2.2.1 rfl).2.2.2⟩

/-- C9 (bounded concurrency).  Exactly `W` workers are spawned, all waiting on
the one channel.  For every job list, every `W ≥ 1` and every interleaving, in
every reachable state there are `W` workers; every job the dispatching loop
has handed over is either finished (its clone call has returned) or in flight
in a worker, since the channel holds nothing; at most `W` jobs are in flight;
and so the loop has handed over at most (finished jobs + `W`) jobs. -/
theorem bounded_concurrency (p : Pool) (W : Int) (hW : 1 ≤ W)
    (sched : List Action) (s : State) (h : exec p sched (initState p W) = some s) :
    (initState p W).workers = List.replicate W.toNat (.recv 0) ∧
    ((initState p W).workers.length : Int) = W ∧
    (s.workers.length : Int) = W ∧
    sent p s = finished s.trace + wsum Worker.inflight s.workers ∧
    (wsum Worker.inflight s.workers : Int) ≤ W ∧
    (sent p s : Int) ≤ finished s.trace + W := by
  obtain ⟨hs, _⟩ := inv_reach h
  have hlen := length_reach h
  have hfl := hs.flow
  have hin : wsum Worker.inflight s.workers ≤ s.workers.length :=
    wsum_le_length (fun wk => by cases wk <;> simp [Worker.inflight]) _
  refine ⟨rfl, ?_, ?_, hfl, ?_, ?_⟩
  · simp only [initState, List.length_replicate]; omega
  · omega
  · omega
  · omega

/-- Witness of C9: after six actions of `demoSched` both workers hold a job, the
loop has handed over three jobs and one is finished. -/
theorem bounded_concurrency_witness :
    (1 : Int) ≤ 2 ∧
    exec demoPool (demoSched.take 6) (initState demoPool 2) = some demoMid ∧
    sent demoPool demoMid = 3 ∧ finished demoMid.trace = 1 ∧
    wsum Worker.inflight demoMid.workers = 2 ∧
    (sent demoPool demoMid : Int) ≤ finished demoMid.trace + 2 :=
  ⟨by decide, by decide, by decide, by decide, by decide,
    (bounded_concurrency demoPool 2 (by decide) (demoSched.take 6) demoMid (by decide)).2.2.2.2.2⟩

/-- C3 (non-fatal skip).  For every job list, every `W ≥ 1` and every set `S`
of positions: if every clone call returns, the clone of each job in `S` with an
error containing "exists and is not an empty directory" and the clone of every
other job with success, then in every reachable state the process has not been
ended by `log.Fatal` or by an exit and no worker is about to run `log.Fatal`; a worker whose clone call is running returns to
the receive of the loop when the call returns (skip or success) and, when the
dispatching loop still has a job, can receive it; every clone call that has
returned did so with the skipped error for a job in `S` and with success
otherwise; once `run` has returned every job has been cloned; every
interleaving can be continued to that normal return, can come to rest only
there, and has at most `4 * len(repos) + W + 3` actions. -/
theorem nonfatal_skip (p : Pool) (W : Int) (hW : 1 ≤ W) (S : Nat → Bool)
    (hS : ∀ (i : Nat) (r : Repository), p.repos[i]? = some r → S i = true →
      ∃ e, p.Clone i (cloneURL p.orgName r.Name) r.Name = some e ∧
        strings.Contains e existsMsg = true)
    (hok : ∀ (i : Nat) (r : Repository), p.repos[i]? = some r → S i = false →
      p.Clone i (cloneURL p.orgName r.Name) r.Name = none)
    (hret : NoExit p)
    (sched : List Action) (s : State) (h : exec p sched (initState p W) = some s) :
    s.fatal = none ∧ s.exited = none ∧
    (∀ (w k : Nat) (j : Job) (e : String), s.workers[w]? ≠ some (.failing k j e)) ∧
    (∀ (w k : Nat) (j : Job), s.workers[w]? = some (.cloning k j) →
      ∃ s', step p s (.ret w) = some s' ∧ s'.workers[w]? = some (.recv k) ∧
        s'.fatal = none ∧ s'.main = s.main ∧
        (∀ i, s.main = .send i → i < p.repos.length →
          ∃ s'' r, step p s' (.send w) = some s'' ∧
            s''.workers[w]? = some (.got k ⟨i, r⟩))) ∧
    (∀ (w i : Nat) (err : Option String), Event.ret w i err ∈ s.trace →
      (S i = true → ∃ e, err = some e ∧ strings.Contains e existsMsg = true) ∧
      (S i = false → err = none)) ∧
    (s.main = .done →
      ∀ i, i < p.repos.length → callN i s.trace = 1 ∧ retN i s.trace = 1) ∧
    (∃ (more : List Action) (s' : State),
      exec p more s = some s' ∧ s'.main = .done ∧ s'.fatal = none) ∧
    ((∀ a, step p s a = none) → s.main = .done) ∧
    sched.length ≤ 4 * p.repos.length + W.toNat + 3 := by
  have hp : NoFatal p := by
    intro i r hr
    cases hSi : S i with
    | true =>
      obtain ⟨e, he, hc⟩ := hS i r hr hSi
      simp [he, fatalOf, hc]
    | false => simp [hok i r hr hSi, fatalOf]
  obtain ⟨hs, h2⟩ := inv_reach h
  obtain ⟨hf, hnf⟩ := nofatal_state hp hs h2
  have hx := noexit_state hret hs h2
  refine ⟨hf, hx, hnf, ?_, ?_, ?_, reach_can_complete hW hp hret h,
    stuck_done hW hp hret h, sched_bound h⟩
  · intro w k j hw
    have hj := hs.job_ok _ (mem_of_get? hw) j rfl
    have hst := Step.retOk (p := p) hf hw (hp j.idx j.repo hj) hx (hret j.idx j.repo hj)
    refine ⟨_, step_complete hst, get_set_self _ hw, hf, rfl, ?_⟩
    intro i hm hi
    have hr : p.repos[i]? = some (p.repos[i]) := List.getElem?_eq_getElem hi
    have hst2 := Step.send (p := p) (w := w) (k := k)
      (s := { s with
        workers := s.workers.set w (.recv k)
        trace := s.trace ++
          [.ret w j.idx (p.Clone j.idx (cloneURL p.orgName j.repo.Name) j.repo.Name)] })
      hf hm (get_set_self _ hw) hr hx
    refine ⟨_, p.repos[i], step_complete hst2, ?_⟩
    exact get_set_self _ (get_set_self _ hw)
  · intro w i err hmem
    obtain ⟨r, hr, herr⟩ := h2.ret_args w i err hmem
    constructor
    · intro hSi
      obtain ⟨e, he, hc⟩ := hS i r hr hSi
      exact ⟨e, by rw [herr, he], hc⟩
    · intro hSi
      rw [herr, hok i r hr hSi]
  · intro hd i hi
    obtain ⟨_, hc, hr, _, _⟩ := counts_of_wg_zero hs (hs.done_wg hd)
    have a := hc i
    have b := hr i
    simp only [hi, if_true] at a b
    exact ⟨a, b⟩

/-- Witness of C3: the clone of `repoA` is skipped, the same worker then clones
`repoB`, and `run` returns. -/
theorem nonfatal_skip_witness :
    exec skipPool skipSched (initState skipPool 1) = some skipFinal ∧
    skipFinal.main = .done ∧ skipFinal.fatal = none ∧
    callN 0 skipFinal.trace = 1 ∧ callN 1 skipFinal.trace = 1 ∧ retN 1 skipFinal.trace = 1 :=
  have hw := nonfatal_skip skipPool 1 (by decide) (fun i => i == 0)
    (by
      intro i r _ hi
      have : i = 0 := by simpa using hi
      subst this
      exact ⟨_, rfl, by decide⟩)
    (by
      intro i r _ hi
      have : i ≠ 0 := by simpa using hi
      simp [skipPool, this])
    (by
      intro i r _
      by_cases hi : i = 0 <;> simp [cloneExit, skipPool, hi, credentialsExit])
    skipSched skipFinal (by decide)
  ⟨by decide, rfl, hw.1, by decide, (hw.2.2.2.2.2.1 rfl 1 (by decide)).1,
    (hw.2.2.2.2.2.1 rfl 1 (by decide)).2⟩

/-- C10 (unvalidated worker count).  The `--concurrency` value is used as given;
its default is 4.  For every `W ≤ 0` no worker is spawned.  With a non-empty
job list no action is then enabled in the initial state: the only reachable
state is the initial one, where the dispatcher is blocked on sending the first
job, the channel is not closed, the counter is `len(repos)`, `git.Clone` has not
been invoked and `run` has not returned.  With an empty job list `close` and the
return of `wg.Wait` are the only actions and `run` returns after them. -/
theorem unvalidated_worker_count (p : Pool) (W : Int) (hW : W ≤ 0) :
    defaultConcurrency = 4 ∧
    (initState p W).workers = [] ∧
    (p.repos ≠ [] →
      (∀ a, step p (initState p W) a = none) ∧
      ∀ (sched : List Action) (s : State), exec p sched (initState p W) = some s →
        sched = [] ∧ s.main = .send 0 ∧ s.closed = false ∧ s.wg = p.repos.length ∧
        calls s.trace = 0 ∧ s.ended = false) ∧
    (p.repos = [] →
      (∃ s, exec p [.close, .wait] (initState p W) = some s ∧ s.main = .done ∧
        s.fatal = none ∧ s.trace = []) ∧
      ∀ (sched : List Action) (s : State), exec p sched (initState p W) = some s →
        (sched = [] ∨ sched = [.close] ∨ sched = [.close, .wait]) ∧ s.trace = []) := by
  have hnat : W.toNat = 0 := by omega
  have hws : (initState p W).workers = [] := by simp [initState, hnat]
  refine ⟨rfl, hws, ?_, ?_⟩
  · intro hne
    have hlen : p.repos.length ≠ 0 := by
      intro h0; exact hne (List.length_eq_zero.1 h0)
    have hnone : ∀ a, step p (initState p W) a = none := by
      intro a
      cases a <;> simp [step, initState, hnat]
      exact fun h0 => hlen h0.symm
    refine ⟨hnone, ?_⟩
    intro sched s h
    cases sched with
    | nil =>
      simp only [exec, Option.some.injEq] at h
      subst h
      simp [initState, calls, State.ended]
    | cons a t => simp [exec, hnone a] at h
  · intro hnil
    have h1 : ∀ a s', step p (initState p W) a = some s' →
        a = .close ∧ s' = { initState p W with main := .wait, closed := true } := by
      intro a s' hst
      cases a <;> simp [step, initState, hnat, hnil] at hst
      exact ⟨rfl, by simp [initState, hnat, hnil, ← hst]⟩
    have h2 : ∀ a s', step p { initState p W with main := .wait, closed := true } a = some s' →
        a = .wait ∧ s' = { initState p W with main := .done, closed := true } := by
      intro a s' hst
      cases a <;> simp [step, initState, hnat, hnil] at hst
      exact ⟨rfl, by simp [initState, hnat, hnil, ← hst]⟩
    have h3 : ∀ a, step p { initState p W with main := .done, closed := true } a = none := by
      intro a
      cases a <;> simp [step, initState, hnat]
    refine ⟨⟨{ initState p W with main := .done, closed := true },
      by simp [exec, step, initState, hnil], rfl, rfl, rfl⟩, ?_⟩
    intro sched s h
    cases sched with
    | nil =>
      simp only [exec, Option.some.injEq] at h
      subst h
      exact ⟨Or.inl rfl, rfl⟩
    | cons a t =>
      simp only [exec] at h
      cases hst : step p (initState p W) a with
      | none => simp [hst] at h
      | some s1 =>
        rw [hst] at h
        obtain ⟨rfl, rfl⟩ := h1 a s1 hst
        cases t with
        | nil =>
          simp only [exec, Option.some.injEq] at h
          subst h
          exact ⟨Or.inr (Or.inl rfl), rfl⟩
        | cons b u =>
          simp only [exec] at h
          cases hst2 : step p { initState p W with main := .wait, closed := true } b with
          | none => simp [hst2] at h
          | some s2 =>
            rw [hst2] at h
            obtain ⟨rfl, rfl⟩ := h2 b s2 hst2
            cases u with
            | nil =>
              simp only [exec, Option.some.injEq] at h
              subst h
              exact ⟨Or.inr (Or.inr rfl), rfl⟩
            | cons c v => simp [exec, h3 c] at h

/-- Witness of C10: `--concurrency 0` on three jobs: no action is enabled in
the initial state. -/
theorem unvalidated_worker_count_witness :
    (0 : Int) ≤ 0 ∧ demoPool.repos ≠ [] ∧ (initState demoPool 0).workers = [] ∧
    (∀ a, step demoPool (initState demoPool 0) a = none) :=
  ⟨le_refl 0, by decide, (unvalidated_worker_count demoPool 0 (le_refl 0)).2.1,
    ((unvalidated_worker_count demoPool 0 (le_refl 0)).2.2.1 (by decide)).1⟩

/-! ### One worker -/

theorem cloneEvents_append (a b : List Event) :
    cloneEvents (a ++ b) = cloneEvents a ++ cloneEvents b := by
  induction a with
  | nil => simp [cloneEvents]
  | cons e t ih => cases e <;> simp [cloneEvents, ih]

theorem seqFrom_at {p : Pool} {i : Nat} {r : Repository} (h : p.repos[i]? = some r) :
    seqFrom p i =
      match fatalOf (p.Clone i (cloneURL p.orgName r.Name) r.Name) with
      | none =>
        (.call i (cloneURL p.orgName r.Name) r.Name ::
          .ret i (p.Clone i (cloneURL p.orgName r.Name) r.Name) :: (seqFrom p (i + 1)).1,
          (seqFrom p (i + 1)).2)
      | some e =>
        ([.call i (cloneURL p.orgName r.Name) r.Name,
          .ret i (p.Clone i (cloneURL p.orgName r.Name) r.Name)], some e) := by
  obtain ⟨hlt, hr⟩ := List.getElem?_eq_some.1 h
  have hdrop : p.repos.drop i = r :: p.repos.drop (i + 1) := by
    rw [← hr]; exact List.drop_eq_getElem_cons hlt
  simp only [seqFrom, hdrop, mainLoop]

theorem seqFrom_end (p : Pool) : seqFrom p p.repos.length = ([], none) := by
  simp [seqFrom, mainLoop]

theorem single_of_get {ws : List Worker} {w : Nat} {old : Worker}
    (h1 : ws.length = 1) (hw : ws[w]? = some old) : w = 0 ∧ ws = [old] := by
  match ws, h1 with
  | [a], _ =>
    cases w with
    | zero => simp at hw; exact ⟨rfl, by rw [hw]⟩
    | succ n => simp at hw

theorem serial_init (p : Pool) : Serial p (initState p 1) := by
  constructor
  · simp [initState]
  · intro wk hwk j hj
    simp [initState] at hwk
    subst hwk
    simp [Worker.job] at hj
  · simp [initState, cloneEvents, serialRest, sent]
  · simp [initState, serialRest, sent]

theorem serial_step {p : Pool} {s s' : State} {a : Action}
    (hs : Inv p s) (h1 : Serial p s) (h : Step p s a s') : Serial p s' := by
  obtain ⟨one, held, events, result⟩ := h1
  cases h with
  | @send w i k r hf hm hw hr =>
    obtain ⟨rfl, hws⟩ := single_of_get one hw
    simp only [serialRest, hws, sent, hm] at events result
    constructor
    · simp [one]
    · intro wk hwk j hj
      simp only [hws, List.set_cons_zero, List.mem_singleton] at hwk
      subst hwk
      simp only [Worker.job, Option.some.injEq] at hj
      subst hj
      simp [sent]
    · simpa [serialRest, hws, cloneEvents_append, cloneEvents] using events
    · simpa [serialRest, hws] using result
  | @close hf hm =>
    have hsent : sent p s = p.repos.length := by simp [sent, hm]
    have hrest : serialRest p { s with main := .wait, closed := true } = serialRest p s := by
      simp only [serialRest, sent, hm]
    constructor
    · exact one
    · intro wk hwk j hj
      have := held wk hwk j hj
      rw [hsent] at this
      simpa [sent] using this
    · rw [hrest]; exact events
    · rw [hrest]; exact result
  | @wait hf hm hz =>
    have hsent : sent p s = p.repos.length := by simp [sent, hm]
    have hrest : serialRest p { s with main := .done } = serialRest p s := by
      simp only [serialRest, sent, hm]
    constructor
    · exact one
    · intro wk hwk j hj
      have := held wk hwk j hj
      rw [hsent] at this
      simpa [sent] using this
    · rw [hrest]; exact events
    · rw [hrest]; exact result
  | @start w k j hf hw =>
    obtain ⟨rfl, hws⟩ := single_of_get one hw
    have hj := hs.job_ok _ (mem_of_get? hw) j rfl
    have hseq := seqFrom_at hj
    simp only [serialRest, hws] at events result
    have hhead : (seqFrom p j.idx).1 =
        .call j.idx (cloneURL p.orgName j.repo.Name) j.repo.Name :: (seqFrom p j.idx).1.tail := by
      rw [hseq]; split <;> simp
    constructor
    · simp [one]
    · intro wk hwk j' hj'
      simp only [hws, List.set_cons_zero, List.mem_singleton] at hwk
      subst hwk
      simp only [Worker.job, Option.some.injEq] at hj'
      subst hj'
      exact held _ (mem_of_get? hw) _ rfl
    · rw [← events]
      simp only [serialRest, hws, List.set_cons_zero, cloneEvents_append, cloneEvents,
        List.append_assoc, List.singleton_append]
      rw [← hhead]
    · simpa [serialRest, hws] using result
  | @retOk w k j hf hw he =>
    obtain ⟨rfl, hws⟩ := single_of_get one hw
    have hj := hs.job_ok _ (mem_of_get? hw) j rfl
    have hseq := seqFrom_at hj
    rw [he] at hseq
    simp only at hseq
    have hsent := held _ (mem_of_get? hw) j rfl
    simp only [serialRest, hws, hseq, List.tail_cons] at events result
    constructor
    · simp [one]
    · intro wk hwk j' hj'
      simp only [hws, List.set_cons_zero, List.mem_singleton] at hwk
      subst hwk
      simp [Worker.job] at hj'
    · rw [← events]
      have hsent' : ∀ (ws : List Worker) (tr : List Event),
          sent p { s with workers := ws, trace := tr } = sent p s := fun _ _ => rfl
      simp only [serialRest, hws, List.set_cons_zero, cloneEvents_append, cloneEvents,
        List.append_assoc, List.singleton_append, hsent', hsent]
    · have hsent' : ∀ (ws : List Worker) (tr : List Event),
          sent p { s with workers := ws, trace := tr } = sent p s := fun _ _ => rfl
      simpa [serialRest, hws, hsent', hsent] using result
  | @retFatal w k j e hf hw he =>
    obtain ⟨rfl, hws⟩ := single_of_get one hw
    have hj := hs.job_ok _ (mem_of_get? hw) j rfl
    have hseq := seqFrom_at hj
    rw [he] at hseq
    simp only at hseq
    simp only [serialRest, hws, hseq, List.tail_cons] at events result
    constructor
    · simp [one]
    · intro wk hwk j' hj'
      simp only [hws, List.set_cons_zero, List.mem_singleton] at hwk
      subst hwk
      simp only [Worker.job, Option.some.injEq] at hj'
      subst hj'
      exact held _ (mem_of_get? hw) _ rfl
    · rw [← events]
      simp only [serialRest, hws, List.set_cons_zero, cloneEvents_append, cloneEvents,
        List.append_assoc, List.singleton_append, List.append_nil]
    · simpa [serialRest, hws] using result
  | @fatal w k j e hf hw =>
    exact ⟨one, held, events, result⟩
  | @abort w k j e hf hw hce =>
    exact ⟨one, held, events, result⟩
  | @leave w k hf hw hc =>
    obtain ⟨rfl, hws⟩ := single_of_get one hw
    simp only [serialRest, hws] at events result
    have hsent' : ∀ (ws : List Worker), sent p { s with workers := ws } = sent p s :=
      fun _ => rfl
    constructor
    · simp [one]
    · intro wk hwk j' hj'
      simp only [hws, List.set_cons_zero, List.mem_singleton] at hwk
      subst hwk
      simp [Worker.job] at hj'
    · simpa [serialRest, hws, hsent'] using events
    · simpa [serialRest, hws, hsent'] using result
  | @done w k hf hw =>
    obtain ⟨rfl, hws⟩ := single_of_get one hw
    simp only [serialRest, hws] at events result
    have hsent' : ∀ (c : Int) (ws : List Worker) (tr : List Event),
        sent p { s with wg := c, workers := ws, trace := tr } = sent p s := fun _ _ _ => rfl
    constructor
    · simp [one]
    · intro wk hwk j' hj'
      simp only [hws, List.set_cons_zero, List.mem_singleton] at hwk
      subst hwk
      simp [Worker.job] at hj'
    · simpa [serialRest, hws, hsent', cloneEvents_append, cloneEvents] using events
    · simpa [serialRest, hws, hsent'] using result

theorem serial_reach {p : Pool} {sched : List Action} {s : State}
    (h : exec p sched (initState p 1) = some s) : Serial p s := by
  have := exec_induct (p := p) (fun s => (Inv p s ∧ Inv2 p s) ∧ Serial p s)
    (fun _ _ _ hh hst =>
      ⟨⟨inv_step hh.1.1 hst, inv2_step hh.1.1 hh.1.2 hst⟩, serial_step hh.1.1 hh.2 hst⟩)
    h ⟨⟨inv_init p 1, inv2_init p 1⟩, serial_init p⟩
  exact this.2

/-- The events of the sequential loop alternate: the call for job `i + k` is at
position `2 * k`. -/
theorem mainLoop_even (org : String) (C : Nat → String → String → Option String) :
    ∀ (rs : List Repository) (i k : Nat) (e : CloneEvent),
      (mainLoop org C i rs).1[2 * k]? = some e →
      ∃ r, rs[k]? = some r ∧ e = .call (i + k) (cloneURL org r.Name) r.Name := by
  intro rs
  induction rs with
  | nil => intro i k e h; simp [mainLoop] at h
  | cons r t ih =>
    intro i k e h
    cases k with
    | zero =>
      simp only [mainLoop] at h
      split at h <;> simp at h <;> exact ⟨r, by simp, by simp [h]⟩
    | succ k =>
      simp only [mainLoop] at h
      have h2 : 2 * (k + 1) = 2 * k + 1 + 1 := by ring
      split at h
      · rw [h2] at h
        simp only [List.getElem?_cons_succ] at h
        obtain ⟨r', hr', he'⟩ := ih (i + 1) k e h
        exact ⟨r', by simpa using hr', by rw [he']; congr 1; omega⟩
      · rw [h2] at h
        simp at h

/-- The return of the call for job `i + k` is at position `2 * k + 1`. -/
theorem mainLoop_odd (org : String) (C : Nat → String → String → Option String) :
    ∀ (rs : List Repository) (i k : Nat) (e : CloneEvent),
      (mainLoop org C i rs).1[2 * k + 1]? = some e →
      ∃ r, rs[k]? = some r ∧
        e = .ret (i + k) (C (i + k) (cloneURL org r.Name) r.Name) := by
  intro rs
  induction rs with
  | nil => intro i k e h; simp [mainLoop] at h
  | cons r t ih =>
    intro i k e h
    cases k with
    | zero =>
      simp only [mainLoop] at h
      split at h <;> simp at h <;> exact ⟨r, by simp, by simp [h]⟩
    | succ k =>
      simp only [mainLoop] at h
      have h2 : 2 * (k + 1) + 1 = 2 * k + 1 + 1 + 1 := by ring
      split at h
      · rw [h2] at h
        simp only [List.getElem?_cons_succ] at h
        obtain ⟨r', hr', he'⟩ := ih (i + 1) k e h
        refine ⟨r', by simpa using hr', ?_⟩
        rw [he']
        have : i + 1 + k = i + (k + 1) := by omega
        rw [this]
      · rw [h2] at h
        simp at h

theorem get?_append_of_some {α : Type} {a b : List α} {n : Nat} {e : α}
    (h : a[n]? = some e) : (a ++ b)[n]? = some e := by
  obtain ⟨hlt, _⟩ := List.getElem?_eq_some.1 h
  rw [List.getElem?_append_left hlt]
  exact h

/-- C5 (serialisation with one worker).  For every job list, with `W = 1`, in
every reachable state: the clone events logged so far are an initial segment
of the events of the sequential loop of .main.go on the same list; the event
at position `2 * k` is the call for job `k` with its URL and name and the event
at position `2 * k + 1` is the return of that call, so the calls are made one
at a time in the order of the list, each after the return of the one before;
at most one clone call is running; a return with a fatal error is the last
event.  Once the process has ended (return of `run` or `log.Fatal`) the clone
events are exactly those of the sequential loop, with the same `log.Fatal`
message if any.  When every clone call returns, every interleaving can be
continued to that end and can come to rest only there; in any case it can be
continued until the process stops and comes to rest only there. -/
theorem serial_single_worker (p : Pool) (sched : List Action) (s : State)
    (h : exec p sched (initState p 1) = some s) :
    (∃ rest, cloneEvents s.trace ++ rest = (mainLoop p.orgName p.Clone 0 p.repos).1) ∧
    (s.ended = true →
      cloneEvents s.trace = (mainLoop p.orgName p.Clone 0 p.repos).1 ∧
      s.fatal = (mainLoop p.orgName p.Clone 0 p.repos).2) ∧
    (∀ (k : Nat) (e : CloneEvent), (cloneEvents s.trace)[2 * k]? = some e →
      ∃ r, p.repos[k]? = some r ∧ e = .call k (cloneURL p.orgName r.Name) r.Name) ∧
    (∀ (k : Nat) (e : CloneEvent), (cloneEvents s.trace)[2 * k + 1]? = some e →
      ∃ r, p.repos[k]? = some r ∧
        e = .ret k (p.Clone k (cloneURL p.orgName r.Name) r.Name)) ∧
    wsum Worker.busy s.workers ≤ 1 ∧
    (∀ (pre post : List Event) (ev : Event), s.trace = pre ++ ev :: post →
      ev.isFatalRet = true → post = []) ∧
    (NoExit p →
      ∃ (more : List Action) (s' : State), exec p more s = some s' ∧ s'.ended = true) ∧
    (NoExit p → (∀ a, step p s a = none) → s.ended = true) ∧
    (∃ (more : List Action) (s' : State), exec p more s = some s' ∧ s'.stopped = true) ∧
    ((∀ a, step p s a = none) → s.stopped = true) := by
  obtain ⟨hs, h2⟩ := inv_reach h
  obtain ⟨one, held, events, result⟩ := serial_reach h
  have hseq0 : seqFrom p 0 = mainLoop p.orgName p.Clone 0 p.repos := by simp [seqFrom]
  rw [hseq0] at events result
  refine ⟨⟨_, events⟩, ?_, ?_, ?_, ?_, ?_, fun hq => reach_can_end (by decide) hq h,
    fun hq => stuck_ended (by decide) hq h, reach_can_stop (by decide) h,
    stuck_stopped (by decide) h⟩
  · intro hend
    have hrest : serialRest p s = ([], s.fatal) := by
      cases hf : s.fatal with
      | some e =>
        obtain ⟨w, k, j, hw⟩ := h2.fatal_failing e hf
        obtain ⟨_, hws⟩ := single_of_get one hw
        simp [serialRest, hws]
      | none =>
        have hd : s.main = .done := by simpa [State.ended, hf] using hend
        have hz := hs.done_wg hd
        obtain ⟨hsent, h0, _⟩ := idle_of_wg_zero hs hz
        match hws : s.workers, one with
        | [wk], _ =>
          have hmem : wk ∈ s.workers := by simp [hws]
          have ho := wsum_eq_zero h0 wk hmem
          have hd' := hs.deferred_pos wk hmem
          cases wk <;>
            simp only [Worker.owed, Worker.deferred, Worker.busy, Worker.failingN] at ho hd' <;>
            first
              | omega
              | simp [serialRest, hws, hsent, seqFrom_end]
    rw [hrest] at events result
    exact ⟨by simpa using events, result⟩
  · intro k e hk
    have := mainLoop_even p.orgName p.Clone p.repos 0 k e
      (by rw [← events]; exact get?_append_of_some hk)
    simpa using this
  · intro k e hk
    have := mainLoop_odd p.orgName p.Clone p.repos 0 k e
      (by rw [← events]; exact get?_append_of_some hk)
    simpa using this
  · have := wsum_le_length (f := Worker.busy)
      (fun wk => by cases wk <;> simp [Worker.busy]) s.workers
    omega
  · intro pre post ev hsplit hev
    have hlast := h2.last_fatal pre post ev hsplit hev
    have hr := h2.in_range
    cases post with
    | nil => rfl
    | cons x t =>
      exfalso
      have h1 := hr x (by rw [hsplit]; simp)
      have h3 := hr ev (by rw [hsplit]; simp)
      have := hlast x (by simp)
      omega

/-- Witness of C5: one worker on two jobs, the first clone fails with an
authentication error; the clone events are those of the sequential loop and
the process ends with that error. -/
theorem serial_single_worker_witness :
    exec fatalPool fatalSched (initState fatalPool 1) = some fatalFinal ∧
    fatalFinal.ended = true ∧
    cloneEvents fatalFinal.trace =
      [.call 0 "git@github.com:org/repoA" "repoA", .ret 0 (some "authentication required")] ∧
    cloneEvents fatalFinal.trace =
      (mainLoop fatalPool.orgName fatalPool.Clone 0 fatalPool.repos).1 ∧
    fatalFinal.fatal = (mainLoop fatalPool.orgName fatalPool.Clone 0 fatalPool.repos).2 :=
  ⟨by decide, by decide, by decide,
    ((serial_single_worker fatalPool fatalSched fatalFinal (by decide)).2.1 (by decide)).1,
    ((serial_single_worker fatalPool fatalSched fatalFinal (by decide)).2.1 (by decide)).2⟩

/-! ### The whole of `run` -/

theorem setup_ready {world : World} {args : List String} {org : String}
    {repos : List Repository} {listed : List String}
    (h : setup world args = .ready org repos listed) :
    ∃ (rest : List String) (all forks : List Repository) (pw : String),
      args = org :: rest ∧ world.ListByOrg org "all" = .ok all ∧
      world.ListByOrg org "forks" = .ok forks ∧ world.ReadPassword = .ok pw ∧
      repos = all ++ forks ∧ listed = ["all", "forks"] := by
  unfold setup at h
  split at h
  · simp at h
  · rename_i o rest
    split at h
    · simp at h
    · rename_i all hall
      split at h
      · simp at h
      · rename_i forks hforks
        split at h
        · simp at h
        · rename_i pw hpw
          simp only [Setup.ready.injEq] at h
          obtain ⟨rfl, rfl, rfl⟩ := h
          exact ⟨rest, all, forks, pw, rfl, hall, hforks, hpw, rfl, rfl⟩

theorem setup_of_ok {world : World} {org pw : String} (rest : List String)
    {all forks : List Repository}
    (hall : world.ListByOrg org "all" = .ok all)
    (hforks : world.ListByOrg org "forks" = .ok forks)
    (hpw : world.ReadPassword = .ok pw) :
    setup world (org :: rest) = .ready org (all ++ forks) ["all", "forks"] := by
  simp [setup, hall, hforks, hpw]

theorem run_aborted {world : World} {args : List String} {W : Int} {msg : String}
    {listed : List String} (hsetup : setup world args = .aborted msg listed) :
    run world args W [] = some (.aborted msg listed) ∧
    ∀ (sched : List Action) (r : Run), run world args W sched = some r →
      sched = [] ∧ r = .aborted msg listed := by
  constructor
  · simp [run, hsetup]
  · intro sched r h
    cases sched with
    | nil =>
      simp only [run, hsetup, Option.some.injEq] at h
      exact ⟨rfl, h.symm⟩
    | cons a t => simp [run, hsetup] at h

theorem run_ready {world : World} {args : List String} {W : Int} {org : String}
    {repos : List Repository} {listed : List String}
    (hsetup : setup world args = .ready org repos listed)
    {sched : List Action} {r : Run} (h : run world args W sched = some r) :
    ∃ s, r = .pool org repos listed s ∧
      exec ⟨org, repos, world.Clone, world.Callback⟩ sched
        (initState ⟨org, repos, world.Clone, world.Callback⟩ W) = some s := by
  simp only [run, hsetup, Option.map_eq_some'] at h
  obtain ⟨s, hs, rfl⟩ := h
  exact ⟨s, rfl, hs⟩

/-- C8 (no clone before a successful setup).  For every world, argument list,
worker count and interleaving: if `git.Clone` has been invoked then the
argument list starts with the organisation name and both `ListByOrg` calls
(type "all" and type "forks") returned without error.  With an empty argument
list `run` ends in `log.Fatal("missing organisation name. see --help")` with no
listing call made.  If the "all" listing fails, or the "all" listing succeeds
(with any repositories) and the "forks" listing fails, `run` ends in
`log.Fatal` of that error; in each of these cases nothing more happens: no
action of the pool and no clone invocation. -/
theorem no_clone_before_setup (world : World) (args : List String) (W : Int) :
    (∀ (sched : List Action) (r : Run), run world args W sched = some r →
      0 < calls r.trace →
      ∃ (org : String) (rest : List String) (all forks : List Repository),
        args = org :: rest ∧ world.ListByOrg org "all" = .ok all ∧
        world.ListByOrg org "forks" = .ok forks) ∧
    (args = [] →
      run world args W [] = some (.aborted "missing organisation name. see --help" []) ∧
      ∀ (sched : List Action) (r : Run), run world args W sched = some r →
        sched = [] ∧ r = .aborted "missing organisation name. see --help" [] ∧
        calls r.trace = 0) ∧
    (∀ (org e : String) (rest : List String), args = org :: rest →
      world.ListByOrg org "all" = .error e →
      run world args W [] = some (.aborted e ["all"]) ∧
      ∀ (sched : List Action) (r : Run), run world args W sched = some r →
        sched = [] ∧ r = .aborted e ["all"] ∧ calls r.trace = 0) ∧
    (∀ (org e : String) (rest : List String) (all : List Repository), args = org :: rest →
      world.ListByOrg org "all" = .ok all → world.ListByOrg org "forks" = .error e →
      run world args W [] = some (.aborted e ["all", "forks"]) ∧
      ∀ (sched : List Action) (r : Run), run world args W sched = some r →
        sched = [] ∧ r = .aborted e ["all", "forks"] ∧ calls r.trace = 0) := by
  have hab : ∀ (msg : String) (listed : List String), setup world args = .aborted msg listed →
      run world args W [] = some (.aborted msg listed) ∧
      ∀ (sched : List Action) (r : Run), run world args W sched = some r →
        sched = [] ∧ r = .aborted msg listed ∧ calls r.trace = 0 := by
    intro msg listed hsetup
    obtain ⟨h1, h2⟩ := run_aborted (W := W) hsetup
    refine ⟨h1, fun sched r h => ?_⟩
    obtain ⟨hs, hr⟩ := h2 sched r h
    exact ⟨hs, hr, by rw [hr]; rfl⟩
  refine ⟨?_, ?_, ?_, ?_⟩
  · intro sched r h hcalls
    cases hsetup : setup world args with
    | aborted msg listed =>
      obtain ⟨_, _, h0⟩ := (hab msg listed hsetup).2 sched r h
      omega
    | ready org repos listed =>
      obtain ⟨rest, all, forks, _, ha, hall, hforks, _⟩ := setup_ready hsetup
      exact ⟨org, rest, all, forks, ha, hall, hforks⟩
  · intro ha
    subst ha
    exact hab _ _ rfl
  · intro org e rest ha hall
    subst ha
    exact hab _ _ (by simp [setup, hall])
  · intro org e rest all ha hall hforks
    subst ha
    exact hab _ _ (by simp [setup, hall, hforks])

/-- Witness of C8: the "all" listing returns a repository and the "forks"
listing fails; `run` ends in `log.Fatal` of that error and nothing is cloned. -/
theorem no_clone_before_setup_witness :
    forksDownWorld.ListByOrg "org" "all" = .ok [⟨"repoA"⟩] ∧
    forksDownWorld.ListByOrg "org" "forks" = .error "503 Service Unavailable" ∧
    run forksDownWorld ["org"] 4 [] = some (.aborted "503 Service Unavailable" ["all", "forks"]) ∧
    (∀ (sched : List Action) (r : Run), run forksDownWorld ["org"] 4 sched = some r →
      sched = [] ∧ r = .aborted "503 Service Unavailable" ["all", "forks"] ∧ calls r.trace = 0) :=
  (no_clone_before_setup forksDownWorld ["org"] 4).2.2.2 "org" "503 Service Unavailable" []
    [⟨"repoA"⟩] rfl rfl rfl |> fun hw => ⟨rfl, rfl, hw.1, hw.2⟩

theorem calledPaths_eq_map (repos : List Repository) :
    ∀ (tr : List Event),
      (∀ (w i : Nat) (url path : String), Event.call w i url path ∈ tr →
        ∃ r, repos[i]? = some r ∧ path = r.Name) →
      calledPaths tr = (calledJobs tr).map (fun i => ((repos.map (·.Name))[i]?).getD "") := by
  intro tr
  induction tr with
  | nil => intro _; rfl
  | cons e t ih =>
    intro h
    have ih' := ih (fun w i url path hm => h w i url path (List.mem_cons_of_mem _ hm))
    cases e with
    | call w i url path =>
      obtain ⟨r, hr, hp⟩ := h w i url path (List.mem_cons_self _ _)
      simp only [calledPaths, calledJobs, List.map_cons, ih', List.getElem?_map, hr,
        Option.map_some', Option.getD_some, hp]
    | took w i => simpa [calledPaths, calledJobs] using ih'
    | ret w i err => simpa [calledPaths, calledJobs] using ih'
    | release w => simpa [calledPaths, calledJobs] using ih'

theorem mem_calledJobs {tr : List Event} {i : Nat} (h : i ∈ calledJobs tr) :
    ∃ (w : Nat) (url path : String), Event.call w i url path ∈ tr := by
  induction tr with
  | nil => simp [calledJobs] at h
  | cons e t ih =>
    cases e with
    | call w j url path =>
      simp only [calledJobs, List.mem_cons] at h
      rcases h with rfl | h
      · exact ⟨w, url, path, List.mem_cons_self _ _⟩
      · obtain ⟨w', u, q, hm⟩ := ih h
        exact ⟨w', u, q, List.mem_cons_of_mem _ hm⟩
    | took w j =>
      obtain ⟨w', u, q, hm⟩ := ih (by simpa [calledJobs] using h)
      exact ⟨w', u, q, List.mem_cons_of_mem _ hm⟩
    | ret w j err =>
      obtain ⟨w', u, q, hm⟩ := ih (by simpa [calledJobs] using h)
      exact ⟨w', u, q, List.mem_cons_of_mem _ hm⟩
    | release w =>
      obtain ⟨w', u, q, hm⟩ := ih (by simpa [calledJobs] using h)
      exact ⟨w', u, q, List.mem_cons_of_mem _ hm⟩

/-- When the names of the job list are pairwise different, so are the target
directories of the clone invocations. -/
theorem calledPaths_nodup {p : Pool} {s : State} (hs : Inv p s) (h2 : Inv2 p s)
    (hn : (p.repos.map (·.Name)).Nodup) : (calledPaths s.trace).Nodup := by
  have hargs : ∀ (w i : Nat) (url path : String), Event.call w i url path ∈ s.trace →
      ∃ r, p.repos[i]? = some r ∧ path = r.Name := by
    intro w i url path hm
    obtain ⟨r, hr, _, hp⟩ := h2.call_args w i url path hm
    exact ⟨r, hr, hp⟩
  rw [calledPaths_eq_map p.repos s.trace hargs]
  have hjobs : (calledJobs s.trace).Nodup := by
    rw [List.nodup_iff_count_le_one]
    intro i
    rw [count_calledJobs]
    exact (counts_le_one hs i).2.1
  refine List.Nodup.map_on ?_ hjobs
  intro i hi i' hi' heq
  obtain ⟨w, u, q, hm⟩ := mem_calledJobs hi
  obtain ⟨w', u', q', hm'⟩ := mem_calledJobs hi'
  obtain ⟨r, hr, _⟩ := hargs w i u q hm
  obtain ⟨r', hr', _⟩ := hargs w' i' u' q' hm'
  have hlt : i < (p.repos.map (·.Name)).length := by
    simpa using (List.getElem?_eq_some.1 hr).1
  have hlt' : i' < (p.repos.map (·.Name)).length := by
    simpa using (List.getElem?_eq_some.1 hr').1
  rw [List.getElem?_eq_getElem hlt, List.getElem?_eq_getElem hlt'] at heq
  simp only [Option.getD_some] at heq
  exact (hn.getElem_inj_iff).1 heq

/-- Counterexample to C6 as stated: the "all" listing returns a repository and a
fork, the "forks" listing the fork again; neither listing repeats a name, yet
the job list has the fork twice and two workers are inside `git.Clone` with the
same target directory `forkB`. -/
theorem disjoint_clone_targets_counterexample :
    forkWorld.ListByOrg "org" "all" = .ok [⟨"repoA"⟩, ⟨"forkB"⟩] ∧
    forkWorld.ListByOrg "org" "forks" = .ok [⟨"forkB"⟩] ∧
    ([⟨"repoA"⟩, ⟨"forkB"⟩] : List Repository).Nodup ∧
    ([⟨"forkB"⟩] : List Repository).Nodup ∧
    run forkWorld ["org"] 2 forkSched =
      some (.pool "org" [⟨"repoA"⟩, ⟨"forkB"⟩, ⟨"forkB"⟩] ["all", "forks"] forkState) ∧
    forkState.workers = [.cloning 2 ⟨2, ⟨"forkB"⟩⟩, .cloning 1 ⟨1, ⟨"forkB"⟩⟩] ∧
    calledPaths forkState.trace = ["repoA", "forkB", "forkB"] ∧
    ¬ (calledPaths forkState.trace).Nodup :=
  ⟨rfl, rfl, by decide, by decide, by decide, rfl, by decide, by decide⟩

/-- C6 as amended (disjoint clone targets).  The jobs dispatched by `run` are
the result of the "all" listing followed by the result of the "forks" listing.
Given that neither listing contains a repeated repository name and that no
name occurs in both listings, no two dispatched jobs have the same name, every
clone invocation has the name of its job as target directory, and in every
reachable state the target directories of the clone invocations made so far
are pairwise different. -/
theorem disjoint_clone_targets (world : World) (args : List String) (W : Int)
    (org : String) (rest : List String) (all forks : List Repository)
    (hargs : args = org :: rest)
    (hall : world.ListByOrg org "all" = .ok all)
    (hforks : world.ListByOrg org "forks" = .ok forks)
    (hn1 : (all.map (·.Name)).Nodup) (hn2 : (forks.map (·.Name)).Nodup)
    (hdis : ∀ n, n ∈ all.map (·.Name) → n ∉ forks.map (·.Name))
    (sched : List Action) (r : Run) (h : run world args W sched = some r) :
    (∀ (org' : String) (repos : List Repository) (listed : List String) (s : State),
      r = .pool org' repos listed s → repos = all ++ forks) ∧
    ((all ++ forks).map (·.Name)).Nodup ∧
    (∀ (w i : Nat) (url path : String), Event.call w i url path ∈ r.trace →
      ∃ job, (all ++ forks)[i]? = some job ∧ path = job.Name) ∧
    (calledPaths r.trace).Nodup := by
  subst hargs
  have hnodup : ((all ++ forks).map (·.Name)).Nodup := by
    rw [List.map_append]
    exact List.Nodup.append hn1 hn2 (List.disjoint_left.2 (fun n hn => hdis n hn))
  cases hsetup : setup world (org :: rest) with
  | aborted msg listed =>
    obtain ⟨_, hr⟩ := (run_aborted (W := W) hsetup).2 sched r h
    subst hr
    refine ⟨fun _ _ _ _ hh => by simp at hh, hnodup, ?_, ?_⟩
    · intro w i url path hm; simp [Run.trace] at hm
    · simp [Run.trace, calledPaths]
  | ready org' repos listed =>
    obtain ⟨rest', all', forks', pw, ha, hall', hforks', _, hrepos, _⟩ := setup_ready hsetup
    simp only [List.cons.injEq] at ha
    obtain ⟨rfl, _⟩ := ha
    rw [hall] at hall'
    rw [hforks] at hforks'
    simp only [Except.ok.injEq] at hall' hforks'
    subst hall' hforks' hrepos
    obtain ⟨s, hr, hex⟩ := run_ready hsetup h
    subst hr
    obtain ⟨hs, h2⟩ := inv_reach hex
    refine ⟨?_, hnodup, ?_, ?_⟩
    · intro _ _ _ _ hh
      simp only [Run.pool.injEq] at hh
      exact hh.2.1.symm
    · intro w i url path hm
      obtain ⟨job, hj, _, hp⟩ := h2.call_args w i url path hm
      exact ⟨job, hj, hp⟩
    · exact calledPaths_nodup hs h2 hnodup

/-- Witness of C6 as amended: listings `[repoA, repoB]` and `[forkC]`; the three
clone invocations of the complete run have three different targets. -/
theorem disjoint_clone_targets_witness :
    run plainWorld ["org"] 2 demoSched =
      some (.pool "org" [⟨"repoA"⟩, ⟨"repoB"⟩, ⟨"forkC"⟩] ["all", "forks"] plainFinal) ∧
    calledPaths plainFinal.trace = ["repoB", "repoA", "forkC"] ∧
    (calledPaths plainFinal.trace).Nodup :=
  ⟨by decide, by decide,
    (disjoint_clone_targets plainWorld ["org"] 2 "org" [] [⟨"repoA"⟩, ⟨"repoB"⟩] [⟨"forkC"⟩]
      rfl rfl rfl (by decide) (by decide) (by decide) demoSched
      (.pool "org" [⟨"repoA"⟩, ⟨"repoB"⟩, ⟨"forkC"⟩] ["all", "forks"] plainFinal)
      (by decide)).2.2.2⟩

theorem fatalOf_eq_some {err : Option String} {m : String} :
    fatalOf err = some m ↔ err = some m ∧ strings.Contains m existsMsg = false := by
  cases err with
  | none => simp [fatalOf]
  | some e =>
    simp only [fatalOf, Option.some.injEq]
    split_ifs with hc
    · constructor
      · intro h; simp at h
      · rintro ⟨rfl, h⟩; rw [hc] at h; simp at h
    · constructor
      · intro h
        cases h
        exact ⟨rfl, by simpa using hc⟩
      · rintro ⟨rfl, _⟩; rfl

/-- Counterexample to C4 as stated, in two runs where the organisation argument
is present and both listings succeed.  In the first the passphrase cannot be
read: `run` ends in `log.Fatal` of that error (cmd/root.go:178, called from
line 89) before any clone.  In the second the credentials closure, run by
libgit2 inside the first `git.Clone`, finds no home directory and calls
`os.Exit(1)` (cmd/root.go:183-187).  In both the process is terminated by an
error and no clone invocation has returned. -/
theorem fatal_clone_errors_counterexample :
    (pwWorld.ListByOrg "org" "all" = .ok [⟨"repoA"⟩] ∧
      pwWorld.ListByOrg "org" "forks" = .ok [] ∧
      run pwWorld ["org"] 4 [] =
        some (.aborted "inappropriate ioctl for device" ["all", "forks"]) ∧
      (Run.aborted "inappropriate ioctl for device" ["all", "forks"]).fatal =
        some "inappropriate ioctl for device" ∧
      calls (Run.aborted "inappropriate ioctl for device" ["all", "forks"]).trace = 0 ∧
      finished (Run.aborted "inappropriate ioctl for device" ["all", "forks"]).trace = 0) ∧
    (homelessWorld.ListByOrg "org" "all" = .ok [⟨"repoA"⟩, ⟨"repoB"⟩] ∧
      homelessWorld.ListByOrg "org" "forks" = .ok [] ∧
      homelessWorld.ReadPassword = .ok "secret" ∧
      run homelessWorld ["org"] 1 homelessSched =
        some (.pool "org" [⟨"repoA"⟩, ⟨"repoB"⟩] ["all", "forks"] homelessState) ∧
      homelessState.exited = some "blank output when reading home directory" ∧
      homelessState.fatal = none ∧
      finished homelessState.trace = 0 ∧
      (∀ a, step ⟨"org", [⟨"repoA"⟩, ⟨"repoB"⟩], homelessWorld.Clone, homelessWorld.Callback⟩
        homelessState a = none)) :=
  ⟨⟨rfl, rfl, by decide, rfl, rfl, rfl⟩,
    ⟨rfl, rfl, rfl, by decide, rfl, rfl, by decide, fun a => by cases a <;> rfl⟩⟩

theorem noexit_of_callback {world : World} {org : String} {repos : List Repository}
    (h : ∀ (i : Nat) (url path e : String), world.Callback i url path ≠ some (.error e)) :
    NoExit ⟨org, repos, world.Clone, world.Callback⟩ := by
  intro i r _
  simp only [cloneExit]
  split
  · rfl
  · rename_i home hc
    cases home with
    | error e => exact absurd hc (h i _ _ e)
    | ok v => rfl

/-- C4 as amended (fatal clone errors).  Once the organisation argument is
present, both listings succeeded, the passphrase was read without error and
the credentials closure finds the home directory whenever libgit2 runs it (so
that every clone invocation returns), the pool runs on the jobs of "all"
followed by those of "forks", and in every reachable state:
* the process has not been ended by the `os.Exit(1)` of the credentials
  closure;
* if the process was ended by `log.Fatal(e)`, then a clone invocation of some
  worker returned the error `e`, which does not contain "exists and is not an
  empty directory", and that worker is the one at `log.Fatal`;
* if some clone invocation returned such an error, its worker is at
  `log.Fatal`, `run` has not returned, and if the process has ended it was
  ended by `log.Fatal`; so a process that has stopped was terminated by an
  error (`log.Fatal` or the exit) if and only if some clone invocation returned
  such an error;
* the return of such an error is the last event of its worker: it makes no
  further clone call, and the only action it can take is that `log.Fatal`;
* after `log.Fatal` no action is enabled and the counter of the wait group is
  still positive: the unfinished jobs are abandoned and no credit is released;
* with at least one worker every interleaving can be continued to the end of
  the process and can come to rest only there. -/
theorem fatal_clone_errors (world : World) (args : List String) (W : Int)
    (org pw : String) (rest : List String) (all forks : List Repository)
    (hargs : args = org :: rest)
    (hall : world.ListByOrg org "all" = .ok all)
    (hforks : world.ListByOrg org "forks" = .ok forks)
    (hpw : world.ReadPassword = .ok pw)
    (hhome : ∀ (i : Nat) (url path e : String), world.Callback i url path ≠ some (.error e))
    (sched : List Action) (r : Run) (h : run world args W sched = some r) :
    ∃ s, r = .pool org (all ++ forks) ["all", "forks"] s ∧
      s.exited = none ∧
      (∀ e, s.fatal = some e →
        ∃ (w k : Nat) (j : Job), s.workers[w]? = some (.failing k j e) ∧
          Event.ret w j.idx (some e) ∈ s.trace ∧ strings.Contains e existsMsg = false) ∧
      (∀ (w i : Nat) (e : String), Event.ret w i (some e) ∈ s.trace →
        strings.Contains e existsMsg = false →
        (∃ (k : Nat) (j : Job), s.workers[w]? = some (.failing k j e) ∧ j.idx = i) ∧
        s.main ≠ .done ∧ (s.ended = true → s.fatal.isSome = true)) ∧
      (s.ended = true →
        (s.fatal.isSome = true ↔
          ∃ (w i : Nat) (e : String), Event.ret w i (some e) ∈ s.trace ∧
            strings.Contains e existsMsg = false)) ∧
      (s.stopped = true →
        ((s.fatal.isSome = true ∨ s.exited.isSome = true) ↔
          ∃ (w i : Nat) (e : String), Event.ret w i (some e) ∈ s.trace ∧
            strings.Contains e existsMsg = false)) ∧
      (∀ (pre post : List Event) (ev : Event), s.trace = pre ++ ev :: post →
        ev.isFatalRet = true → ∀ e ∈ post, e.worker ≠ ev.worker) ∧
      (s.fatal.isSome = true →
        0 < s.wg ∧ ∀ a, step ⟨org, all ++ forks, world.Clone, world.Callback⟩ s a = none) ∧
      (∀ (w k : Nat) (j : Job) (e : String), s.workers[w]? = some (.failing k j e) →
        s.fatal = none →
        step ⟨org, all ++ forks, world.Clone, world.Callback⟩ s (.fatal w) =
          some { s with fatal := some e } ∧
        step ⟨org, all ++ forks, world.Clone, world.Callback⟩ s (.send w) = none ∧
        step ⟨org, all ++ forks, world.Clone, world.Callback⟩ s (.start w) = none ∧
        step ⟨org, all ++ forks, world.Clone, world.Callback⟩ s (.ret w) = none ∧
        step ⟨org, all ++ forks, world.Clone, world.Callback⟩ s (.abort w) = none ∧
        step ⟨org, all ++ forks, world.Clone, world.Callback⟩ s (.leave w) = none ∧
        step ⟨org, all ++ forks, world.Clone, world.Callback⟩ s (.done w) = none) ∧
      (1 ≤ W →
        (∃ (more : List Action) (s' : State),
          exec ⟨org, all ++ forks, world.Clone, world.Callback⟩ more s = some s' ∧
            s'.ended = true) ∧
        ((∀ a, step ⟨org, all ++ forks, world.Clone, world.Callback⟩ s a = none) →
          s.ended = true)) := by
  subst hargs
  have hsetup := setup_of_ok rest hall hforks hpw
  obtain ⟨s, hr, hex⟩ := run_ready hsetup h
  obtain ⟨hs, h2⟩ := inv_reach hex
  have hq : NoExit ⟨org, all ++ forks, world.Clone, world.Callback⟩ :=
    noexit_of_callback hhome
  have hx := noexit_state hq hs h2
  have hfail : ∀ (w k : Nat) (j : Job) (e : String),
      s.workers[w]? = some (.failing k j e) → 0 < s.wg ∧ s.main ≠ .done := by
    intro w k j e hw
    have hmem := mem_of_get? hw
    have hd := hs.deferred_pos _ hmem
    simp only [Worker.busy, Worker.failingN, Worker.deferred] at hd
    have hpos : 0 < wsum Worker.owed s.workers := by
      by_contra hz
      have := wsum_eq_zero (by omega : wsum Worker.owed s.workers = 0) _ hmem
      simp only [Worker.owed, Worker.deferred] at this
      omega
    have hwg := hs.wg_eq
    have hle := hs.sent_le
    have hwgpos : 0 < s.wg := by omega
    exact ⟨hwgpos, fun hd => by have := hs.done_wg hd; omega⟩
  have hif : ∀ (w i : Nat) (e : String), Event.ret w i (some e) ∈ s.trace →
      strings.Contains e existsMsg = false →
      (∃ (k : Nat) (j : Job), s.workers[w]? = some (.failing k j e) ∧ j.idx = i) ∧
      s.main ≠ .done ∧ (s.ended = true → s.fatal.isSome = true) := by
    intro w i e hm hc
    obtain ⟨k, j, hw, hj⟩ := h2.ret_failing w i (some e) e hm (fatalOf_eq_some.2 ⟨rfl, hc⟩)
    have hnd := (hfail w k j e hw).2
    refine ⟨⟨k, j, hw, hj⟩, hnd, ?_⟩
    intro hend
    simpa [State.ended, hnd] using hend
  have honly : ∀ e, s.fatal = some e →
      ∃ (w k : Nat) (j : Job), s.workers[w]? = some (.failing k j e) ∧
        Event.ret w j.idx (some e) ∈ s.trace ∧ strings.Contains e existsMsg = false := by
    intro e he
    obtain ⟨w, k, j, hw⟩ := h2.fatal_failing e he
    obtain ⟨h1, h3⟩ := h2.failing_ret w k j e hw
    obtain ⟨herr, hc⟩ := fatalOf_eq_some.1 h1
    rw [herr] at h3
    exact ⟨w, k, j, hw, h3, hc⟩
  have hiff : s.ended = true →
      (s.fatal.isSome = true ↔
        ∃ (w i : Nat) (e : String), Event.ret w i (some e) ∈ s.trace ∧
          strings.Contains e existsMsg = false) := by
    intro hend
    constructor
    · intro hf
      obtain ⟨e, he⟩ := Option.isSome_iff_exists.1 hf
      obtain ⟨w, k, j, _, hm, hc⟩ := honly e he
      exact ⟨w, j.idx, e, hm, hc⟩
    · rintro ⟨w, i, e, hm, hc⟩
      exact (hif w i e hm hc).2.2 hend
  refine ⟨s, hr, hx, honly, hif, hiff, ?_, h2.last_fatal, ?_, ?_, ?_⟩
  · intro hstop
    have hend := ended_of_stopped hq hs h2 hstop
    rw [← hiff hend]
    simp [hx]
  · intro hf
    obtain ⟨e, he⟩ := Option.isSome_iff_exists.1 hf
    obtain ⟨w, k, j, hw, _, _⟩ := honly e he
    refine ⟨(hfail w k j e hw).1, ?_⟩
    intro a
    simp [step, he]
  · intro w k j e hw hf
    refine ⟨?_, ?_, ?_, ?_, ?_, ?_, ?_⟩ <;> simp [step, hf, hx, hw]
  · intro hW
    exact ⟨reach_can_end hW hq hex, stuck_ended hW hq hex⟩

/-- Witness of C4 as amended: two workers, the clone of `repoB` fails with an
authentication error; the process is ended by `log.Fatal` of that error while
worker 0 holds a job it never clones, and the counter stays at 3. -/
theorem fatal_clone_errors_witness :
    run authWorld ["org"] 2 authSched =
      some (.pool "org" [⟨"repoA"⟩, ⟨"repoB"⟩, ⟨"forkC"⟩] ["all", "forks"] authState) ∧
    (∀ (i : Nat) (url path e : String), authWorld.Callback i url path ≠ some (.error e)) ∧
    authState.fatal = some "authentication required" ∧
    authState.wg = 3 ∧
    (∃ s, Run.pool "org" [⟨"repoA"⟩, ⟨"repoB"⟩, ⟨"forkC"⟩] ["all", "forks"] authState =
        Run.pool "org" ([⟨"repoA"⟩, ⟨"repoB"⟩] ++ [⟨"forkC"⟩]) ["all", "forks"] s ∧
      s.exited = none ∧
      (s.stopped = true →
        ((s.fatal.isSome = true ∨ s.exited.isSome = true) ↔
          ∃ (w i : Nat) (e : String), Event.ret w i (some e) ∈ s.trace ∧
            strings.Contains e existsMsg = false))) :=
  ⟨by decide, fun _ _ _ _ hh => by simp [authWorld] at hh, rfl, rfl,
    match fatal_clone_errors authWorld ["org"] 2 "org" "secret" []
      [⟨"repoA"⟩, ⟨"repoB"⟩] [⟨"forkC"⟩] rfl rfl rfl rfl
      (fun _ _ _ _ hh => by simp [authWorld] at hh) authSched
      (.pool "org" [⟨"repoA"⟩, ⟨"repoB"⟩, ⟨"forkC"⟩] ["all", "forks"] authState)
      (by decide) with
    | ⟨s, hs, hx, _, _, _, hiff, _⟩ => ⟨s, hs, hx, hiff⟩⟩

end GhRecurse
